import Mathlib

/-!
# Limit-order matching engine over an array-backed binary heap

Shallow embedding of `src/main.cpp`: the class `Heap<T>` with its two
subclasses `MinHeap` / `MaxHeap`, the `Order` record, the two order
comparators and `MatchingEngine::add`, and the class `Stack<T>` with the
function `find_next_prices`.

Modelling conventions.

* `std::vector<T>` is a `List T`; the 1-based index arithmetic of `heapify`
  is kept as it is written in the source.
* `uint32_t` / `uint64_t` / `size_t` values are natural numbers; the only
  arithmetic on them that can leave the range is the `uint32_t` subtraction
  of quantities, which is `sub32` (explicitly modulo `2^32`).
* Undefined behaviour of the source (reading `m_data[0]` of an empty vector,
  reading outside the vector) and exhaustion of the loop fuel are results
  `Except.error`; every loop of the source is a structurally recursive
  function on a fuel argument.
* `std::cout << "Matched " << q << " shares of " << id` is a `MatchEvent`
  appended to the list of events returned by `add`.
-/

namespace Kstream

/-- Faults of the model: the three ways in which an execution of the source
has no defined result in the embedding. -/
inductive Fault where
  | EmptyQueueAccess
  | IndexOutOfRange
  | OutOfFuel
deriving DecidableEq, Repr

deriving instance DecidableEq for Except

/-! ## `Heap<T>`, `MinHeap<T, Compare>`, `MaxHeap<T, Compare>` -/

/-- The class `Heap<T>`: its only data member is `m_data`. -/
structure Heap (T : Type) where
  m_data : List T
deriving DecidableEq, Repr

/-- The element `m_data[k-1]` for a 1-based index `k` (`size_t` arithmetic:
`k = 0` wraps around and is outside every vector). -/
def at1 {T : Type} (m_data : List T) (k : Nat) : Except Fault T :=
  if k = 0 then Except.error Fault.IndexOutOfRange
  else
    match m_data[k - 1]? with
    | some x => Except.ok x
    | none => Except.error Fault.IndexOutOfRange

/-- The call `std::swap(m_data[a-1], m_data[b-1])` for 1-based `a`, `b`. -/
def swap1 {T : Type} (m_data : List T) (a b : Nat) : Except Fault (List T) :=
  match at1 m_data a with
  | Except.error f => Except.error f
  | Except.ok x =>
    match at1 m_data b with
    | Except.error f => Except.error f
    | Except.ok y => Except.ok ((m_data.set (a - 1) y).set (b - 1) x)

/-- The loop of `MaxHeap::heapify` and of `MinHeap::heapify` (lines 141-166 and
180-205; the two bodies are the same text, they differ in the type of
`m_compare` only). The first argument is the fuel of the `while` loop. -/
def heapifyLoop {T : Type} (m_compare : T → T → Bool) :
    Nat → List T → Nat → Except Fault (List T)
  | 0, m_data, index =>
    if index ≤ m_data.length / 2 then Except.error Fault.OutOfFuel else Except.ok m_data
  | fuel + 1, m_data, index =>
    if index ≤ m_data.length / 2 then
      let child_index_left := index * 2
      let child_index_right := index * 2 + 1
      -- first `if`: compare the left child with the element at `index`
      match (if child_index_left ≤ m_data.length then
              (match at1 m_data child_index_left, at1 m_data index with
               | Except.ok l, Except.ok m =>
                 Except.ok (if m_compare l m then child_index_left else index)
               | Except.error f, _ => Except.error f
               | _, Except.error f => Except.error f)
             else Except.ok index : Except Fault Nat) with
      | Except.error f => Except.error f
      | Except.ok max_index1 =>
        -- second `if`: compare the right child with the element at `max_index`
        match (if child_index_right ≤ m_data.length then
                (match at1 m_data child_index_right, at1 m_data max_index1 with
                 | Except.ok r, Except.ok m =>
                   Except.ok (if m_compare r m then child_index_right else max_index1)
                 | Except.error f, _ => Except.error f
                 | _, Except.error f => Except.error f)
               else Except.ok max_index1 : Except Fault Nat) with
        | Except.error f => Except.error f
        | Except.ok max_index =>
          if max_index ≠ index then
            match swap1 m_data max_index index with
            | Except.error f => Except.error f
            | Except.ok m_data1 => heapifyLoop m_compare fuel m_data1 max_index
          else Except.ok m_data
    else Except.ok m_data

/-- The method `heapify(index)`: the loop with as much fuel as the vector has
elements. -/
def heapify {T : Type} (m_compare : T → T → Bool) (m_data : List T) (index : Nat) :
    Except Fault (List T) :=
  heapifyLoop m_compare m_data.length m_data index

namespace Heap

/-- The default constructor `Heap()`. -/
def empty {T : Type} : Heap T := Heap.mk []

/-- The method `size()`. -/
def size {T : Type} (h : Heap T) : Nat := h.m_data.length

/-- The method `peek()`: a copy of `m_data[0]`, or `std::nullopt`. -/
def peek {T : Type} (h : Heap T) : Option T :=
  if h.size = 0 then none else h.m_data[0]?

/-- The method `push(elem)`: `push_back` and then `heapify(m_data.size())`. -/
def push {T : Type} (m_compare : T → T → Bool) (h : Heap T) (elem : T) :
    Except Fault (Heap T) :=
  let m_data := h.m_data ++ [elem]
  match heapify m_compare m_data m_data.length with
  | Except.error f => Except.error f
  | Except.ok d => Except.ok (Heap.mk d)

/-- The method `pop()`: `m_data[0] = m_data.back(); m_data.pop_back();
heapify(1)`. Reading `m_data[0]` of an empty vector is the fault
`EmptyQueueAccess`. -/
def pop {T : Type} (m_compare : T → T → Bool) (h : Heap T) :
    Except Fault (T × Heap T) :=
  match h.m_data[0]?, h.m_data.getLast? with
  | some result, some back =>
    match heapify m_compare ((h.m_data.set 0 back).dropLast) 1 with
    | Except.error f => Except.error f
    | Except.ok d => Except.ok (result, Heap.mk d)
  | _, _ => Except.error Fault.EmptyQueueAccess

end Heap

/-! ## Orders and comparators -/

/-- The enumeration `OrderType`; `add` has a branch for each of its two
enumerators. -/
inductive OrderType where
  | Buy
  | Sell
deriving DecidableEq, Repr

/-- The record `Order`. -/
structure Order where
  id : Nat
  price : Nat
  quantity : Nat
  type : OrderType
  time_unix_nano : Nat
deriving DecidableEq, Repr

/-- The functor `OrderLessComparator`. -/
def OrderLessComparator (o1 o2 : Order) : Bool :=
  if o1.price = o2.price then decide (o1.time_unix_nano < o2.time_unix_nano)
  else decide (o1.price < o2.price)

/-- The functor `OrderGreaterComparator`. -/
def OrderGreaterComparator (o1 o2 : Order) : Bool :=
  if o1.price = o2.price then decide (o1.time_unix_nano < o2.time_unix_nano)
  else decide (o1.price > o2.price)

/-- Subtraction of two `uint32_t` values. -/
def sub32 (a b : Nat) : Nat := (a + 4294967296 - b) % 4294967296

/-- One line `Matched <quantity> shares of <id>` written by `add`. -/
structure MatchEvent where
  quantity : Nat
  id : Nat
deriving DecidableEq, Repr

/-! ## `MatchingEngine` -/

/-- The class `MatchingEngine`: a `MinHeap<Order, OrderLessComparator>` of sell
orders and a `MaxHeap<Order, OrderGreaterComparator>` of buy orders. -/
structure MatchingEngine where
  m_sell_orders : Heap Order
  m_buy_orders : Heap Order
deriving DecidableEq, Repr

/-- The `while (min_sell_order)` loop of the Buy branch of `add` (lines
255-284). Arguments: the fuel, the sell queue, the local `quantity`. Result:
the sell queue, the local `quantity` and the events written, in order. -/
def buyLoop (order : Order) :
    Nat → Heap Order → Nat → Except Fault (Heap Order × Nat × List MatchEvent)
  | fuel, sells, quantity =>
    match sells.peek with
    | none => Except.ok (sells, quantity, [])
    | some min_sell_order =>
      if order.price < min_sell_order.price then Except.ok (sells, quantity, [])
      else
        -- the two branches of `if (min_sell_order->quantity >= quantity)`:
        -- the event, the quantity left in the peeked copy, the new `quantity`
        let ev : MatchEvent :=
          if min_sell_order.quantity ≥ quantity then MatchEvent.mk quantity min_sell_order.id
          else MatchEvent.mk min_sell_order.quantity min_sell_order.id
        let copy_quantity : Nat :=
          if min_sell_order.quantity ≥ quantity then sub32 min_sell_order.quantity quantity
          else 0
        let quantity1 : Nat :=
          if min_sell_order.quantity ≥ quantity then 0
          else sub32 quantity min_sell_order.quantity
        match (if copy_quantity = 0 then
                (match sells.pop OrderLessComparator with
                 | Except.error f => Except.error f
                 | Except.ok (_, s) => Except.ok s)
               else Except.ok sells : Except Fault (Heap Order)) with
        | Except.error f => Except.error f
        | Except.ok sells1 =>
          if quantity1 = 0 then Except.ok (sells1, quantity1, [ev])
          else
            match fuel with
            | 0 => Except.error Fault.OutOfFuel
            | fuel1 + 1 =>
              match buyLoop order fuel1 sells1 quantity1 with
              | Except.error f => Except.error f
              | Except.ok (s, q, evs) => Except.ok (s, q, ev :: evs)

/-- The `while (max_buy_order)` loop of the Sell branch of `add` (lines
296-325). It tests and prints `order.quantity` where the Buy branch uses the
local `quantity`. -/
def sellLoop (order : Order) :
    Nat → Heap Order → Nat → Except Fault (Heap Order × Nat × List MatchEvent)
  | fuel, buys, quantity =>
    match buys.peek with
    | none => Except.ok (buys, quantity, [])
    | some max_buy_order =>
      if order.price > max_buy_order.price then Except.ok (buys, quantity, [])
      else
        let ev : MatchEvent :=
          if max_buy_order.quantity ≥ order.quantity then
            MatchEvent.mk order.quantity max_buy_order.id
          else MatchEvent.mk max_buy_order.quantity max_buy_order.id
        let copy_quantity : Nat :=
          if max_buy_order.quantity ≥ order.quantity then
            sub32 max_buy_order.quantity order.quantity
          else 0
        let quantity1 : Nat :=
          if max_buy_order.quantity ≥ order.quantity then 0
          else sub32 quantity max_buy_order.quantity
        match (if copy_quantity = 0 then
                (match buys.pop OrderGreaterComparator with
                 | Except.error f => Except.error f
                 | Except.ok (_, b) => Except.ok b)
               else Except.ok buys : Except Fault (Heap Order)) with
        | Except.error f => Except.error f
        | Except.ok buys1 =>
          if quantity1 = 0 then Except.ok (buys1, quantity1, [ev])
          else
            match fuel with
            | 0 => Except.error Fault.OutOfFuel
            | fuel1 + 1 =>
              match sellLoop order fuel1 buys1 quantity1 with
              | Except.error f => Except.error f
              | Except.ok (b, q, evs) => Except.ok (b, q, ev :: evs)

/-- The copy `unfilled_order` of `order` with `quantity` overwritten. -/
def unfilled_order (order : Order) (quantity : Nat) : Order :=
  Order.mk order.id order.price quantity order.type order.time_unix_nano

namespace MatchingEngine

/-- The engine with two empty queues. -/
def empty : MatchingEngine := MatchingEngine.mk Heap.empty Heap.empty

/-- The method `add(order)`: the new engine and the events written. The fuel of
each matching loop is the size of the opposing queue. -/
def add (e : MatchingEngine) (order : Order) :
    Except Fault (MatchingEngine × List MatchEvent) :=
  match order.type with
  | OrderType.Buy =>
    match buyLoop order e.m_sell_orders.size e.m_sell_orders order.quantity with
    | Except.error f => Except.error f
    | Except.ok (sells, quantity, evs) =>
      if quantity > 0 then
        match e.m_buy_orders.push OrderGreaterComparator (unfilled_order order quantity) with
        | Except.error f => Except.error f
        | Except.ok buys => Except.ok (MatchingEngine.mk sells buys, evs)
      else Except.ok (MatchingEngine.mk sells e.m_buy_orders, evs)
  | OrderType.Sell =>
    match sellLoop order e.m_buy_orders.size e.m_buy_orders order.quantity with
    | Except.error f => Except.error f
    | Except.ok (buys, quantity, evs) =>
      if quantity > 0 then
        match e.m_sell_orders.push OrderLessComparator (unfilled_order order quantity) with
        | Except.error f => Except.error f
        | Except.ok sells => Except.ok (MatchingEngine.mk sells buys, evs)
      else Except.ok (MatchingEngine.mk e.m_sell_orders buys, evs)

/-- A finite sequence of `add` calls, one after the other; the events of the
calls are concatenated in order. -/
def addAll : MatchingEngine → List Order → Except Fault (MatchingEngine × List MatchEvent)
  | e, [] => Except.ok (e, [])
  | e, order :: orders =>
    match e.add order with
    | Except.error f => Except.error f
    | Except.ok (e1, evs1) =>
      match addAll e1 orders with
      | Except.error f => Except.error f
      | Except.ok (e2, evs2) => Except.ok (e2, evs1 ++ evs2)

end MatchingEngine

/-! ## Predicates and inputs used in the statements -/

/-- Every order stored in either queue has a positive quantity. -/
def PositiveBook (e : MatchingEngine) : Prop :=
  (∀ o ∈ e.m_buy_orders.m_data, 0 < o.quantity) ∧
  (∀ o ∈ e.m_sell_orders.m_data, 0 < o.quantity)

/-- The sum of the matched quantities of a list of events. -/
def sumMatched (evs : List MatchEvent) : Nat := (evs.map MatchEvent.quantity).sum

/-- The queue an incoming order is matched against. -/
def opposing (e : MatchingEngine) (order : Order) : Heap Order :=
  match order.type with
  | OrderType.Buy => e.m_sell_orders
  | OrderType.Sell => e.m_buy_orders

/-- The no-crossing condition on a book: one queue is empty, or every stored
buy price is strictly less than every stored sell price (the highest buy price
is below the lowest sell price). -/
def NoCrossing (e : MatchingEngine) : Prop :=
  e.m_buy_orders.m_data = [] ∨ e.m_sell_orders.m_data = [] ∨
  ∀ b ∈ e.m_buy_orders.m_data, ∀ s ∈ e.m_sell_orders.m_data, b.price < s.price

instance (e : MatchingEngine) : Decidable (NoCrossing e) := by
  unfold NoCrossing; infer_instance

/-- Sells at 100 and then at 90, then a buy at 95. -/
def ordersCrossing : List Order :=
  [Order.mk 1 100 1 OrderType.Sell 1, Order.mk 2 90 1 OrderType.Sell 2,
   Order.mk 3 95 1 OrderType.Buy 3]

/-- Two sells at price 100, the later timestamp submitted first, then a buy of
5 shares at 100. -/
def ordersLateFirst : List Order :=
  [Order.mk 11 100 3 OrderType.Sell 2, Order.mk 10 100 3 OrderType.Sell 1,
   Order.mk 12 100 5 OrderType.Buy 3]

/-- Scenario 1 and 2 of the specification: a sell of 10 at 100, then a buy of
4 at 105. -/
def ordersScenarioTwo : List Order :=
  [Order.mk 1 100 10 OrderType.Sell 1, Order.mk 2 105 4 OrderType.Buy 2]

/-- Buys of 3 and of 10 shares at 100, then a sell of 5 shares at 100. -/
def ordersSellFill : List Order :=
  [Order.mk 1 100 3 OrderType.Buy 1, Order.mk 2 100 10 OrderType.Buy 2,
   Order.mk 3 100 5 OrderType.Sell 3]

/-- Buys of 3 and of 4 shares at 100, then a sell of 5 shares at 100. -/
def ordersSellWrap : List Order :=
  [Order.mk 1 100 3 OrderType.Buy 1, Order.mk 2 100 4 OrderType.Buy 2,
   Order.mk 3 100 5 OrderType.Sell 3]

/-- The queue an incoming order is stored in. -/
def ownSide (e : MatchingEngine) (order : Order) : Heap Order :=
  match order.type with
  | OrderType.Buy => e.m_buy_orders
  | OrderType.Sell => e.m_sell_orders

/-- The price test of `add`: an incoming Buy stops at `order.price <
resting.price` (line 259), an incoming Sell at `order.price > resting.price`
(line 300); a resting order crosses when the test does not stop the loop. -/
def crosses (order resting : Order) : Bool :=
  match order.type with
  | OrderType.Buy => !decide (order.price < resting.price)
  | OrderType.Sell => !decide (order.price > resting.price)

/-- The book of scenario 3 of the specification: a sell of 6 shares at 100. -/
def bookOneSell : MatchingEngine :=
  MatchingEngine.mk (Heap.mk [Order.mk 1 100 6 OrderType.Sell 1]) (Heap.mk [])

/-- A strict weak ordering in the sense of the C++ `Compare` requirements:
irreflexive, asymmetric, transitive, and with a transitive incomparability
relation. -/
structure StrictWeakOrder {T : Type} (cmp : T → T → Bool) : Prop where
  irrefl : ∀ a, cmp a a = false
  asymm : ∀ a b, cmp a b = true → cmp b a = false
  trans : ∀ a b c, cmp a b = true → cmp b c = true → cmp a c = true
  incomp_trans : ∀ a b c, cmp a b = false → cmp b a = false →
    cmp b c = false → cmp c b = false → cmp a c = false ∧ cmp c a = false

/-- The heap invariant on the parents from index `k` on (1-based indices): no
element at an index `i` whose parent index `i / 2` is at least `k` is strictly
better under `cmp` than its parent. -/
def HeapFrom {T : Type} (cmp : T → T → Bool) (d : List T) (k : Nat) : Prop :=
  ∀ i x y, 2 ≤ i → i ≤ d.length → k ≤ i / 2 →
    d[i - 1]? = some x → d[i / 2 - 1]? = some y → cmp x y = false

/-- The heap invariant of an array: no element is strictly better than its
parent at the 1-based index `i / 2`. -/
def IsHeap {T : Type} (cmp : T → T → Bool) (d : List T) : Prop := HeapFrom cmp d 1

/-- The loop `for (i = m_data.size()/2; i > 0; i--) heapify(i)` of `from`; the
first argument is the loop variable `i`. -/
def fromLoop {T : Type} (m_compare : T → T → Bool) : Nat → List T → Except Fault (List T)
  | 0, m_data => Except.ok m_data
  | i + 1, m_data =>
    match heapify m_compare m_data (i + 1) with
    | Except.error f => Except.error f
    | Except.ok d => fromLoop m_compare i d

/-- The method `from(data)`: `m_data = data`, then the loop over the indices
`size/2` down to 1. The previous contents of the heap are overwritten. -/
def Heap.«from» {T : Type} (m_compare : T → T → Bool) (_h : Heap T) (data : List T) :
    Except Fault (Heap T) :=
  match fromLoop m_compare (data.length / 2) data with
  | Except.error f => Except.error f
  | Except.ok d => Except.ok (Heap.mk d)

/-- Three sell orders at prices 90, 100 and 95, an array satisfying the heap
invariant of `MinHeap<Order, OrderLessComparator>`. -/
def heapThreeSells : Heap Order :=
  Heap.mk [Order.mk 1 90 1 OrderType.Sell 1, Order.mk 2 100 1 OrderType.Sell 2,
    Order.mk 3 95 1 OrderType.Sell 3]

/-- Four sell orders at prices 100, 95, 90 and 85, in an order that does not
satisfy the heap invariant. -/
def dataFourSells : List Order :=
  [Order.mk 1 100 1 OrderType.Sell 1, Order.mk 2 95 1 OrderType.Sell 2,
    Order.mk 3 90 1 OrderType.Sell 3, Order.mk 4 85 1 OrderType.Sell 4]

/-! ## `Stack<T>` and `find_next_prices` -/

/-- The class `Stack<T>`: the linked list reachable from `m_head`, the head
first. -/
structure Stack (T : Type) where
  m_head : List T
deriving DecidableEq, Repr

namespace Stack

/-- The method `push(elem)`. -/
def push {T : Type} (s : Stack T) (elem : T) : Stack T := Stack.mk (elem :: s.m_head)

/-- The method `pop()`: the removed head, or `std::nullopt`, and the new
stack. -/
def pop {T : Type} (s : Stack T) : Option T × Stack T :=
  match s.m_head with
  | [] => (none, s)
  | current_head :: new_head => (some current_head, Stack.mk new_head)

/-- The method `peek()`. -/
def peek {T : Type} (s : Stack T) : Option T :=
  match s.m_head with
  | [] => none
  | current_head :: _ => some current_head

end Stack

/-- The record `IndexedElem<int>`. -/
structure IndexedElem where
  value : Int
  index : Nat
deriving DecidableEq, Repr

/-- The `while (last_value)` loop of `find_next_prices` (lines 73-82) for the
price `price = prices[i-1]`. Arguments: the fuel and the stack. Result: the
index written to `result[i-1]`, if one is written, and the stack. -/
def whileLoop (price : Int) :
    Nat → Stack IndexedElem → Except Fault (Option Nat × Stack IndexedElem)
  | 0, stack =>
    match stack.peek with
    | none => Except.ok (none, stack)
    | some last_value =>
      if price < last_value.value then Except.ok (some last_value.index, stack)
      else Except.error Fault.OutOfFuel
  | fuel + 1, stack =>
    match stack.peek with
    | none => Except.ok (none, stack)
    | some last_value =>
      if price < last_value.value then Except.ok (some last_value.index, stack)
      else whileLoop price fuel stack.pop.2

/-- The `for (size_t i = prices.size(); i > 0; i--)` loop of
`find_next_prices`; the first argument is the loop variable `i`, the body works
on the index `i - 1`. The fuel of the inner loop is the number of elements of
the stack. -/
def forLoop (prices : List Int) :
    Nat → List Nat → Stack IndexedElem → Except Fault (List Nat)
  | 0, result, _ => Except.ok result
  | i + 1, result, stack =>
    match prices[i]? with
    | none => Except.error Fault.IndexOutOfRange
    | some price =>
      match whileLoop price stack.m_head.length stack with
      | Except.error f => Except.error f
      | Except.ok (found, stack1) =>
        let result1 :=
          match found with
          | some index => result.set i index
          | none => result
        forLoop prices i result1 (stack1.push (IndexedElem.mk price i))

/-- The function `find_next_prices`. The result is a vector of `int` that
holds indices; they are natural numbers here (vectors of fewer than 2^31
elements). -/
def find_next_prices (prices : List Int) : Except Fault (List Nat) :=
  forLoop prices prices.length (List.replicate prices.length 0) (Stack.mk [])
/-- The value `r` is the answer for the index `i` with price `p`: the smallest
index after `i` that holds a price greater than `p` when there is one, and 0
when there is none. -/
def IsNextGreater (prices : List Int) (i : Nat) (p : Int) (r : Nat) : Prop :=
  ((∃ j q, i < j ∧ prices[j]? = some q ∧ p < q) →
    ∃ q, i < r ∧ prices[r]? = some q ∧ p < q ∧
      ∀ j q1, i < j → j < r → prices[j]? = some q1 → q1 ≤ p) ∧
  ((∀ j q, i < j → prices[j]? = some q → q ≤ p) → r = 0)

/-! ## Lemmas on the heap operations -/

section HeapLemmas

variable {T : Type}

theorem at1_ok (m_data : List T) (k : Nat) (h1 : 1 ≤ k) (h2 : k ≤ m_data.length) :
    ∃ x, at1 m_data k = Except.ok x ∧ m_data[k - 1]? = some x := by
  have hk : k - 1 < m_data.length := by omega
  refine ⟨m_data[k - 1], ?_, ?_⟩
  · unfold at1
    rw [if_neg (by omega), List.getElem?_eq_getElem hk]
  · exact List.getElem?_eq_getElem hk

theorem cons_set_perm (a : T) :
    ∀ (d : List T) (j : Nat) (y : T), d[j]? = some y → (y :: d.set j a).Perm (a :: d) := by
  intro d
  induction d with
  | nil => intro j y h; simp at h
  | cons b d ih =>
    intro j y h
    cases j with
    | zero =>
      simp at h
      subst h
      simpa using List.Perm.swap a b d
    | succ j =>
      simp at h
      have h1 := ih j y h
      simp only [List.set_cons_succ]
      exact ((List.Perm.swap b y _).trans (h1.cons b)).trans (List.Perm.swap a b d)

theorem set_set_perm :
    ∀ (d : List T) (i j : Nat) (x y : T), d[i]? = some x → d[j]? = some y →
      ((d.set i y).set j x).Perm d := by
  intro d
  induction d with
  | nil => intro i j x y h; simp at h
  | cons a d ih =>
    intro i j x y hi hj
    cases i with
    | zero =>
      simp at hi
      subst hi
      cases j with
      | zero =>
        simp at hj
        subst hj
        simp
      | succ j =>
        simp at hj
        simpa using cons_set_perm a d j y hj
    | succ i =>
      simp at hi
      cases j with
      | zero =>
        simp at hj
        subst hj
        simpa using cons_set_perm a d i x hi
      | succ j =>
        simp at hj
        simpa using (ih i j x y hi hj).cons a

theorem swap1_ok (m_data : List T) (a b : Nat) (ha1 : 1 ≤ a) (ha2 : a ≤ m_data.length)
    (hb1 : 1 ≤ b) (hb2 : b ≤ m_data.length) :
    ∃ d, swap1 m_data a b = Except.ok d ∧ d.Perm m_data := by
  obtain ⟨x, hx, hx1⟩ := at1_ok m_data a ha1 ha2
  obtain ⟨y, hy, hy1⟩ := at1_ok m_data b hb1 hb2
  refine ⟨(m_data.set (a - 1) y).set (b - 1) x, ?_, set_set_perm m_data _ _ x y hx1 hy1⟩
  unfold swap1
  rw [hx, hy]

theorem heapifyLoop_ok (m_compare : T → T → Bool) :
    ∀ (fuel : Nat) (m_data : List T) (index : Nat), 1 ≤ index →
      m_data.length ≤ index + fuel →
      ∃ d, heapifyLoop m_compare fuel m_data index = Except.ok d ∧ d.Perm m_data := by
  intro fuel
  induction fuel with
  | zero =>
    intro m_data index h1 h2
    refine ⟨m_data, ?_, List.Perm.refl _⟩
    unfold heapifyLoop
    rw [if_neg (by omega)]
  | succ fuel ih =>
    intro m_data index h1 h2
    unfold heapifyLoop
    by_cases hc : index ≤ m_data.length / 2
    · rw [if_pos hc]
      have hl : index * 2 ≤ m_data.length := by omega
      obtain ⟨l, hl1, -⟩ := at1_ok m_data (index * 2) (by omega) hl
      obtain ⟨m, hm1, -⟩ := at1_ok m_data index h1 (by omega)
      simp only [if_pos hl, hl1, hm1]
      -- the index after the first comparison
      generalize hmax1 : (if m_compare l m = true then index * 2 else index) = max_index1
      have hb1 : 1 ≤ max_index1 ∧ max_index1 ≤ m_data.length ∧
          (max_index1 = index ∨ index + 1 ≤ max_index1) := by
        subst hmax1; split <;> omega
      obtain ⟨m1, hm2, -⟩ := at1_ok m_data max_index1 hb1.1 hb1.2.1
      have key : ∀ max_index : Nat, 1 ≤ max_index → max_index ≤ m_data.length →
          (max_index = index ∨ index + 1 ≤ max_index) →
          ∃ d, (if max_index ≠ index then
                  match swap1 m_data max_index index with
                  | Except.error f => Except.error f
                  | Except.ok m_data1 => heapifyLoop m_compare fuel m_data1 max_index
                else Except.ok m_data) = Except.ok d ∧ d.Perm m_data := by
        intro max_index hx1 hx2 hx3
        by_cases hne : max_index = index
        · rw [if_neg (by simpa using hne)]
          exact ⟨m_data, rfl, List.Perm.refl _⟩
        · rw [if_pos hne]
          obtain ⟨d1, hd1, hp1⟩ := swap1_ok m_data max_index index hx1 hx2 h1 (by omega)
          rw [hd1]
          obtain ⟨d, hd, hp⟩ := ih d1 max_index hx1 (by rw [hp1.length_eq]; omega)
          exact ⟨d, hd, hp.trans hp1⟩
      by_cases hr : index * 2 + 1 ≤ m_data.length
      · obtain ⟨r, hr1, -⟩ := at1_ok m_data (index * 2 + 1) (by omega) hr
        simp only [if_pos hr, hr1, hm2]
        apply key <;> split <;> omega
      · simp only [if_neg hr]
        exact key max_index1 hb1.1 hb1.2.1 hb1.2.2
    · rw [if_neg hc]
      exact ⟨m_data, rfl, List.Perm.refl _⟩

theorem heapify_ok (m_compare : T → T → Bool) (m_data : List T) (index : Nat)
    (h1 : 1 ≤ index) :
    ∃ d, heapify m_compare m_data index = Except.ok d ∧ d.Perm m_data :=
  heapifyLoop_ok m_compare m_data.length m_data index h1 (by omega)

theorem heapifyLoop_last (m_compare : T → T → Bool) (fuel : Nat) (m_data : List T)
    (index : Nat) (h : m_data.length / 2 < index) :
    heapifyLoop m_compare fuel m_data index = Except.ok m_data := by
  cases fuel <;> unfold heapifyLoop <;> rw [if_neg (by omega)]

theorem Heap.push_eq (m_compare : T → T → Bool) (h : Heap T) (elem : T) :
    h.push m_compare elem = Except.ok (Heap.mk (h.m_data ++ [elem])) := by
  unfold Heap.push heapify
  simp only []
  rw [heapifyLoop_last]
  simp
  omega

theorem Heap.peek_nil : (Heap.mk ([] : List T)).peek = none := by
  simp [Heap.peek, Heap.size]

theorem Heap.peek_cons (x : T) (rest : List T) : (Heap.mk (x :: rest)).peek = some x := by
  simp [Heap.peek, Heap.size]

theorem Heap.peek_eq_some {h : Heap T} {x : T} (hp : h.peek = some x) :
    ∃ rest, h = Heap.mk (x :: rest) := by
  obtain ⟨d⟩ := h
  cases d with
  | nil => simp [Heap.peek, Heap.size] at hp
  | cons a rest =>
    simp [Heap.peek, Heap.size] at hp
    exact ⟨rest, by rw [hp]⟩

theorem Heap.pop_cons (m_compare : T → T → Bool) (x : T) (rest : List T) :
    ∃ d, (Heap.mk (x :: rest)).pop m_compare = Except.ok (x, Heap.mk d) ∧ d.Perm rest := by
  unfold Heap.pop
  rcases List.eq_nil_or_concat rest with hnil | ⟨L, b, hL⟩
  · subst hnil
    obtain ⟨d, hd, hp⟩ := heapify_ok m_compare ([] : List T) 1 (le_refl 1)
    refine ⟨d, ?_, hp⟩
    simp [hd]
  · rw [List.concat_eq_append] at hL
    subst hL
    obtain ⟨d, hd, hp⟩ := heapify_ok m_compare (b :: L) 1 (le_refl 1)
    refine ⟨d, ?_, hp.trans (List.perm_append_singleton b L).symm⟩
    have h1 : (x :: (L ++ [b])).getLast? = some b := by
      rw [← List.cons_append, List.getLast?_append]
      simp
    have h2 : ((x :: (L ++ [b])).set 0 b).dropLast = b :: L := by
      rw [List.set_cons_zero, ← List.cons_append, List.dropLast_concat]
    simp only [List.getElem?_cons_zero, h1, h2, hd]

end HeapLemmas

/-! ## Lemmas on the matching loops -/

theorem buyLoop_induct (order : Order)
    (P : Heap Order → Nat → Heap Order × Nat × List MatchEvent → Prop)
    (h_none : ∀ q, P (Heap.mk []) q (Heap.mk [], q, []))
    (h_break : ∀ r rest q, order.price < r.price →
      P (Heap.mk (r :: rest)) q (Heap.mk (r :: rest), q, []))
    (h_part : ∀ r rest q, ¬ order.price < r.price → r.quantity ≥ q →
      sub32 r.quantity q ≠ 0 →
      P (Heap.mk (r :: rest)) q (Heap.mk (r :: rest), 0, [MatchEvent.mk q r.id]))
    (h_exact : ∀ r rest q d, ¬ order.price < r.price → r.quantity ≥ q →
      sub32 r.quantity q = 0 → d.Perm rest →
      P (Heap.mk (r :: rest)) q (Heap.mk d, 0, [MatchEvent.mk q r.id]))
    (h_last : ∀ r rest q d, ¬ order.price < r.price → r.quantity < q →
      sub32 q r.quantity = 0 → d.Perm rest →
      P (Heap.mk (r :: rest)) q (Heap.mk d, 0, [MatchEvent.mk r.quantity r.id]))
    (h_cont : ∀ r rest q d res, ¬ order.price < r.price → r.quantity < q →
      sub32 q r.quantity ≠ 0 → d.Perm rest →
      P (Heap.mk d) (sub32 q r.quantity) res →
      P (Heap.mk (r :: rest)) q
        (res.1, res.2.1, MatchEvent.mk r.quantity r.id :: res.2.2)) :
    ∀ (fuel : Nat) (sells : Heap Order) (q : Nat), sells.size ≤ fuel →
      ∃ res, buyLoop order fuel sells q = Except.ok res ∧ P sells q res := by
  intro fuel
  induction fuel with
  | zero =>
    intro sells q hsz
    obtain ⟨d⟩ := sells
    have : d = [] := by simpa [Heap.size] using hsz
    subst this
    refine ⟨_, ?_, h_none q⟩
    unfold buyLoop
    simp [Heap.peek_nil]
  | succ fuel ih =>
    intro sells q hsz
    obtain ⟨d⟩ := sells
    cases d with
    | nil =>
      refine ⟨_, ?_, h_none q⟩
      unfold buyLoop
      simp [Heap.peek_nil]
    | cons r rest =>
      unfold buyLoop
      simp only [Heap.peek_cons]
      by_cases hp : order.price < r.price
      · rw [if_pos hp]
        exact ⟨_, rfl, h_break r rest q hp⟩
      · rw [if_neg hp]
        obtain ⟨d, hd, hperm⟩ := Heap.pop_cons OrderLessComparator r rest
        by_cases hge : r.quantity ≥ q
        · simp only [if_pos hge, hd]
          by_cases hz : sub32 r.quantity q = 0
          · simp only [if_pos hz]
            exact ⟨_, rfl, h_exact r rest q d hp hge hz hperm⟩
          · simp only [if_neg hz]
            exact ⟨_, rfl, h_part r rest q hp hge hz⟩
        · simp only [if_neg hge, hd, if_true]
          by_cases hz : sub32 q r.quantity = 0
          · simp only [if_pos hz]
            refine ⟨_, rfl, ?_⟩
            rw [hz]
            exact h_last r rest q d hp (by omega) hz hperm
          · simp only [if_neg hz]
            have hsz1 : (Heap.mk d).size ≤ fuel := by
              have := hperm.length_eq
              simp [Heap.size] at hsz ⊢
              omega
            obtain ⟨res, hres, hP⟩ := ih (Heap.mk d) (sub32 q r.quantity) hsz1
            rw [hres]
            exact ⟨_, rfl, h_cont r rest q d res hp (by omega) hz hperm hP⟩

theorem sellLoop_induct (order : Order)
    (P : Heap Order → Nat → Heap Order × Nat × List MatchEvent → Prop)
    (h_none : ∀ q, P (Heap.mk []) q (Heap.mk [], q, []))
    (h_break : ∀ r rest q, order.price > r.price →
      P (Heap.mk (r :: rest)) q (Heap.mk (r :: rest), q, []))
    (h_part : ∀ r rest q, ¬ order.price > r.price → r.quantity ≥ order.quantity →
      sub32 r.quantity order.quantity ≠ 0 →
      P (Heap.mk (r :: rest)) q (Heap.mk (r :: rest), 0, [MatchEvent.mk order.quantity r.id]))
    (h_exact : ∀ r rest q d, ¬ order.price > r.price → r.quantity ≥ order.quantity →
      sub32 r.quantity order.quantity = 0 → d.Perm rest →
      P (Heap.mk (r :: rest)) q (Heap.mk d, 0, [MatchEvent.mk order.quantity r.id]))
    (h_last : ∀ r rest q d, ¬ order.price > r.price → r.quantity < order.quantity →
      sub32 q r.quantity = 0 → d.Perm rest →
      P (Heap.mk (r :: rest)) q (Heap.mk d, 0, [MatchEvent.mk r.quantity r.id]))
    (h_cont : ∀ r rest q d res, ¬ order.price > r.price → r.quantity < order.quantity →
      sub32 q r.quantity ≠ 0 → d.Perm rest →
      P (Heap.mk d) (sub32 q r.quantity) res →
      P (Heap.mk (r :: rest)) q
        (res.1, res.2.1, MatchEvent.mk r.quantity r.id :: res.2.2)) :
    ∀ (fuel : Nat) (buys : Heap Order) (q : Nat), buys.size ≤ fuel →
      ∃ res, sellLoop order fuel buys q = Except.ok res ∧ P buys q res := by
  intro fuel
  induction fuel with
  | zero =>
    intro buys q hsz
    obtain ⟨d⟩ := buys
    have : d = [] := by simpa [Heap.size] using hsz
    subst this
    refine ⟨_, ?_, h_none q⟩
    unfold sellLoop
    simp [Heap.peek_nil]
  | succ fuel ih =>
    intro buys q hsz
    obtain ⟨d⟩ := buys
    cases d with
    | nil =>
      refine ⟨_, ?_, h_none q⟩
      unfold sellLoop
      simp [Heap.peek_nil]
    | cons r rest =>
      unfold sellLoop
      simp only [Heap.peek_cons]
      by_cases hp : order.price > r.price
      · rw [if_pos hp]
        exact ⟨_, rfl, h_break r rest q hp⟩
      · rw [if_neg hp]
        obtain ⟨d, hd, hperm⟩ := Heap.pop_cons OrderGreaterComparator r rest
        by_cases hge : r.quantity ≥ order.quantity
        · simp only [if_pos hge, hd]
          by_cases hz : sub32 r.quantity order.quantity = 0
          · simp only [if_pos hz]
            exact ⟨_, rfl, h_exact r rest q d hp hge hz hperm⟩
          · simp only [if_neg hz]
            exact ⟨_, rfl, h_part r rest q hp hge hz⟩
        · simp only [if_neg hge, hd, if_true]
          by_cases hz : sub32 q r.quantity = 0
          · simp only [if_pos hz]
            refine ⟨_, rfl, ?_⟩
            rw [hz]
            exact h_last r rest q d hp (by omega) hz hperm
          · simp only [if_neg hz]
            have hsz1 : (Heap.mk d).size ≤ fuel := by
              have := hperm.length_eq
              simp [Heap.size] at hsz ⊢
              omega
            obtain ⟨res, hres, hP⟩ := ih (Heap.mk d) (sub32 q r.quantity) hsz1
            rw [hres]
            exact ⟨_, rfl, h_cont r rest q d res hp (by omega) hz hperm hP⟩

theorem add_buy_eq (e : MatchingEngine) (order : Order) (hty : order.type = OrderType.Buy)
    (s : Heap Order) (q : Nat) (evs : List MatchEvent)
    (h : buyLoop order e.m_sell_orders.size e.m_sell_orders order.quantity
      = Except.ok (s, q, evs)) :
    e.add order = Except.ok
      (MatchingEngine.mk s
        (if q > 0 then Heap.mk (e.m_buy_orders.m_data ++ [unfilled_order order q])
         else e.m_buy_orders), evs) := by
  unfold MatchingEngine.add
  simp only [hty, h, Heap.push_eq]
  split <;> rfl

theorem add_sell_eq (e : MatchingEngine) (order : Order) (hty : order.type = OrderType.Sell)
    (b : Heap Order) (q : Nat) (evs : List MatchEvent)
    (h : sellLoop order e.m_buy_orders.size e.m_buy_orders order.quantity
      = Except.ok (b, q, evs)) :
    e.add order = Except.ok
      (MatchingEngine.mk
        (if q > 0 then Heap.mk (e.m_sell_orders.m_data ++ [unfilled_order order q])
         else e.m_sell_orders) b, evs) := by
  unfold MatchingEngine.add
  simp only [hty, h, Heap.push_eq]
  split <;> rfl

/-- The queue left by the Buy loop holds only orders of the queue it started
from. -/
theorem buyLoop_subset (order : Order) (fuel : Nat) (sells : Heap Order) (q : Nat)
    (hf : sells.size ≤ fuel) :
    ∃ res, buyLoop order fuel sells q = Except.ok res ∧
      ∀ o ∈ res.1.m_data, o ∈ sells.m_data := by
  refine buyLoop_induct order (fun sells _ res => ∀ o ∈ res.1.m_data, o ∈ sells.m_data)
    ?_ ?_ ?_ ?_ ?_ ?_ fuel sells q hf
  · intro q o ho; exact ho
  · intro r rest q _ o ho; exact ho
  · intro r rest q _ _ _ o ho; exact ho
  · intro r rest q d _ _ _ hd o ho
    exact List.mem_cons_of_mem _ (hd.subset ho)
  · intro r rest q d _ _ _ hd o ho
    exact List.mem_cons_of_mem _ (hd.subset ho)
  · intro r rest q d res _ _ _ hd ih o ho
    exact List.mem_cons_of_mem _ (hd.subset (ih o ho))

theorem sellLoop_subset (order : Order) (fuel : Nat) (buys : Heap Order) (q : Nat)
    (hf : buys.size ≤ fuel) :
    ∃ res, sellLoop order fuel buys q = Except.ok res ∧
      ∀ o ∈ res.1.m_data, o ∈ buys.m_data := by
  refine sellLoop_induct order (fun buys _ res => ∀ o ∈ res.1.m_data, o ∈ buys.m_data)
    ?_ ?_ ?_ ?_ ?_ ?_ fuel buys q hf
  · intro q o ho; exact ho
  · intro r rest q _ o ho; exact ho
  · intro r rest q _ _ _ o ho; exact ho
  · intro r rest q d _ _ _ hd o ho
    exact List.mem_cons_of_mem _ (hd.subset ho)
  · intro r rest q d _ _ _ hd o ho
    exact List.mem_cons_of_mem _ (hd.subset ho)
  · intro r rest q d res _ _ _ hd ih o ho
    exact List.mem_cons_of_mem _ (hd.subset (ih o ho))

/-- Every event of the Buy loop names an order of the sell queue whose price
does not exceed the incoming price. -/
theorem buyLoop_events (order : Order) (fuel : Nat) (sells : Heap Order) (q : Nat)
    (hf : sells.size ≤ fuel) :
    ∃ res, buyLoop order fuel sells q = Except.ok res ∧
      ∀ ev ∈ res.2.2, ∃ r ∈ sells.m_data, r.id = ev.id ∧ r.price ≤ order.price := by
  refine buyLoop_induct order
    (fun sells _ res => ∀ ev ∈ res.2.2, ∃ r ∈ sells.m_data, r.id = ev.id ∧
      r.price ≤ order.price) ?_ ?_ ?_ ?_ ?_ ?_ fuel sells q hf
  · intro q ev hev; simp at hev
  · intro r rest q _ ev hev; simp at hev
  · intro r rest q hp _ _ ev hev
    simp only [List.mem_singleton] at hev
    subst hev
    exact ⟨r, List.mem_cons_self _ _, rfl, by omega⟩
  · intro r rest q d hp _ _ _ ev hev
    simp only [List.mem_singleton] at hev
    subst hev
    exact ⟨r, List.mem_cons_self _ _, rfl, by omega⟩
  · intro r rest q d hp _ _ _ ev hev
    simp only [List.mem_singleton] at hev
    subst hev
    exact ⟨r, List.mem_cons_self _ _, rfl, by omega⟩
  · intro r rest q d res hp _ _ hd ih ev hev
    rcases List.mem_cons.1 hev with h0 | h1
    · subst h0
      exact ⟨r, List.mem_cons_self _ _, rfl, by omega⟩
    · obtain ⟨r1, hr1, hid, hpr⟩ := ih ev h1
      exact ⟨r1, List.mem_cons_of_mem _ (hd.subset hr1), hid, hpr⟩

theorem sellLoop_events (order : Order) (fuel : Nat) (buys : Heap Order) (q : Nat)
    (hf : buys.size ≤ fuel) :
    ∃ res, sellLoop order fuel buys q = Except.ok res ∧
      ∀ ev ∈ res.2.2, ∃ r ∈ buys.m_data, r.id = ev.id ∧ order.price ≤ r.price := by
  refine sellLoop_induct order
    (fun buys _ res => ∀ ev ∈ res.2.2, ∃ r ∈ buys.m_data, r.id = ev.id ∧
      order.price ≤ r.price) ?_ ?_ ?_ ?_ ?_ ?_ fuel buys q hf
  · intro q ev hev; simp at hev
  · intro r rest q _ ev hev; simp at hev
  · intro r rest q hp _ _ ev hev
    simp only [List.mem_singleton] at hev
    subst hev
    exact ⟨r, List.mem_cons_self _ _, rfl, by omega⟩
  · intro r rest q d hp _ _ _ ev hev
    simp only [List.mem_singleton] at hev
    subst hev
    exact ⟨r, List.mem_cons_self _ _, rfl, by omega⟩
  · intro r rest q d hp _ _ _ ev hev
    simp only [List.mem_singleton] at hev
    subst hev
    exact ⟨r, List.mem_cons_self _ _, rfl, by omega⟩
  · intro r rest q d res hp _ _ hd ih ev hev
    rcases List.mem_cons.1 hev with h0 | h1
    · subst h0
      exact ⟨r, List.mem_cons_self _ _, rfl, by omega⟩
    · obtain ⟨r1, hr1, hid, hpr⟩ := ih ev h1
      exact ⟨r1, List.mem_cons_of_mem _ (hd.subset hr1), hid, hpr⟩

/-- Every event of the Buy loop has a positive quantity when the stored
quantities and the local `quantity` are positive. -/
theorem buyLoop_positive (order : Order) (fuel : Nat) (sells : Heap Order) (q : Nat)
    (hf : sells.size ≤ fuel) :
    ∃ res, buyLoop order fuel sells q = Except.ok res ∧
      ((∀ o ∈ sells.m_data, 0 < o.quantity) → 0 < q → ∀ ev ∈ res.2.2, 0 < ev.quantity) := by
  refine buyLoop_induct order
    (fun sells q res => (∀ o ∈ sells.m_data, 0 < o.quantity) → 0 < q →
      ∀ ev ∈ res.2.2, 0 < ev.quantity) ?_ ?_ ?_ ?_ ?_ ?_ fuel sells q hf
  · intro q _ _ ev hev; simp at hev
  · intro r rest q _ _ _ ev hev; simp at hev
  · intro r rest q _ _ _ _ hq ev hev
    simp only [List.mem_singleton] at hev
    subst hev
    exact hq
  · intro r rest q d _ _ _ _ _ hq ev hev
    simp only [List.mem_singleton] at hev
    subst hev
    exact hq
  · intro r rest q d _ _ _ _ hs _ ev hev
    simp only [List.mem_singleton] at hev
    subst hev
    exact hs r (List.mem_cons_self _ _)
  · intro r rest q d res _ _ hz hd ih hs _ ev hev
    rcases List.mem_cons.1 hev with h0 | h1
    · subst h0
      exact hs r (List.mem_cons_self _ _)
    · exact ih (fun o ho => hs o (List.mem_cons_of_mem _ (hd.subset ho)))
        (Nat.pos_of_ne_zero hz) ev h1

theorem sellLoop_positive (order : Order) (hoq : 0 < order.quantity) (fuel : Nat)
    (buys : Heap Order) (q : Nat) (hf : buys.size ≤ fuel) :
    ∃ res, sellLoop order fuel buys q = Except.ok res ∧
      ((∀ o ∈ buys.m_data, 0 < o.quantity) → ∀ ev ∈ res.2.2, 0 < ev.quantity) := by
  refine sellLoop_induct order
    (fun buys _ res => (∀ o ∈ buys.m_data, 0 < o.quantity) →
      ∀ ev ∈ res.2.2, 0 < ev.quantity) ?_ ?_ ?_ ?_ ?_ ?_ fuel buys q hf
  · intro q _ ev hev; simp at hev
  · intro r rest q _ _ ev hev; simp at hev
  · intro r rest q _ _ _ _ ev hev
    simp only [List.mem_singleton] at hev
    subst hev
    exact hoq
  · intro r rest q d _ _ _ _ _ ev hev
    simp only [List.mem_singleton] at hev
    subst hev
    exact hoq
  · intro r rest q d _ _ _ _ hs ev hev
    simp only [List.mem_singleton] at hev
    subst hev
    exact hs r (List.mem_cons_self _ _)
  · intro r rest q d res _ _ _ hd ih hs ev hev
    rcases List.mem_cons.1 hev with h0 | h1
    · subst h0
      exact hs r (List.mem_cons_self _ _)
    · exact ih (fun o ho => hs o (List.mem_cons_of_mem _ (hd.subset ho))) ev h1

/-- The first order peeked by the Buy loop is matched when its price does not
exceed the incoming price. -/
theorem buyLoop_first (order : Order) (fuel : Nat) (sells : Heap Order) (q : Nat)
    (hf : sells.size ≤ fuel) :
    ∃ res, buyLoop order fuel sells q = Except.ok res ∧
      (∀ r, sells.peek = some r → r.price ≤ order.price → res.2.2 ≠ []) := by
  refine buyLoop_induct order
    (fun sells _ res => ∀ r, sells.peek = some r → r.price ≤ order.price → res.2.2 ≠ [])
    ?_ ?_ ?_ ?_ ?_ ?_ fuel sells q hf
  · intro q r hr; simp [Heap.peek_nil] at hr
  · intro r rest q hp r1 hr1 hle
    simp only [Heap.peek_cons, Option.some.injEq] at hr1
    subst hr1
    omega
  · intro r rest q _ _ _ r1 _ _; simp
  · intro r rest q d _ _ _ _ r1 _ _; simp
  · intro r rest q d _ _ _ _ r1 _ _; simp
  · intro r rest q d res _ _ _ _ _ r1 _ _; simp

theorem sellLoop_first (order : Order) (fuel : Nat) (buys : Heap Order) (q : Nat)
    (hf : buys.size ≤ fuel) :
    ∃ res, sellLoop order fuel buys q = Except.ok res ∧
      (∀ r, buys.peek = some r → order.price ≤ r.price → res.2.2 ≠ []) := by
  refine sellLoop_induct order
    (fun buys _ res => ∀ r, buys.peek = some r → order.price ≤ r.price → res.2.2 ≠ [])
    ?_ ?_ ?_ ?_ ?_ ?_ fuel buys q hf
  · intro q r hr; simp [Heap.peek_nil] at hr
  · intro r rest q hp r1 hr1 hle
    simp only [Heap.peek_cons, Option.some.injEq] at hr1
    subst hr1
    omega
  · intro r rest q _ _ _ r1 _ _; simp
  · intro r rest q d _ _ _ _ r1 _ _; simp
  · intro r rest q d _ _ _ _ r1 _ _; simp
  · intro r rest q d res _ _ _ _ _ r1 _ _; simp

/-- Two successful runs of the same computation have the same result. -/
theorem ok_unique {α : Type} {x : Except Fault α} {a b : α}
    (ha : x = Except.ok a) (hb : x = Except.ok b) : a = b := by
  rw [ha] at hb
  exact Except.ok.inj hb

theorem add_positive (e : MatchingEngine) (order : Order) (he : PositiveBook e) :
    ∃ e1 evs, e.add order = Except.ok (e1, evs) ∧ PositiveBook e1 ∧
      (0 < order.quantity → ∀ ev ∈ evs, 0 < ev.quantity) := by
  cases hty : order.type with
  | Buy =>
    obtain ⟨⟨s, q, evs⟩, hres, hsub⟩ :=
      buyLoop_subset order e.m_sell_orders.size e.m_sell_orders order.quantity (le_refl _)
    obtain ⟨res2, hres2, hpos⟩ :=
      buyLoop_positive order e.m_sell_orders.size e.m_sell_orders order.quantity (le_refl _)
    have heq := ok_unique hres2 hres
    subst heq
    refine ⟨_, evs, add_buy_eq e order hty s q evs hres, ⟨?_, ?_⟩, fun hq => hpos he.2 hq⟩
    · intro o ho
      by_cases hq : q > 0
      · simp only [if_pos hq, List.mem_append, List.mem_singleton] at ho
        rcases ho with ho | ho
        · exact he.1 o ho
        · subst ho; exact hq
      · simp only [if_neg hq] at ho
        exact he.1 o ho
    · intro o ho
      exact he.2 o (hsub o ho)
  | Sell =>
    obtain ⟨⟨b, q, evs⟩, hres, hsub⟩ :=
      sellLoop_subset order e.m_buy_orders.size e.m_buy_orders order.quantity (le_refl _)
    refine ⟨_, evs, add_sell_eq e order hty b q evs hres, ⟨?_, ?_⟩, ?_⟩
    · intro o ho
      exact he.1 o (hsub o ho)
    · intro o ho
      by_cases hq : q > 0
      · simp only [if_pos hq, List.mem_append, List.mem_singleton] at ho
        rcases ho with ho | ho
        · exact he.2 o ho
        · subst ho; exact hq
      · simp only [if_neg hq] at ho
        exact he.2 o ho
    · intro hoq
      obtain ⟨res2, hres2, hpos⟩ :=
        sellLoop_positive order hoq e.m_buy_orders.size e.m_buy_orders order.quantity
          (le_refl _)
      have heq := ok_unique hres2 hres
      subst heq
      exact hpos he.1

theorem addAll_positive :
    ∀ (orders : List Order) (e : MatchingEngine), PositiveBook e →
      ∃ e1 evs, e.addAll orders = Except.ok (e1, evs) ∧ PositiveBook e1 ∧
        ((∀ o ∈ orders, 0 < o.quantity) → ∀ ev ∈ evs, 0 < ev.quantity) := by
  intro orders
  induction orders with
  | nil =>
    intro e he
    exact ⟨e, [], rfl, he, fun _ ev hev => by simp at hev⟩
  | cons order orders ih =>
    intro e he
    obtain ⟨e1, evs1, h1, hp1, hev1⟩ := add_positive e order he
    obtain ⟨e2, evs2, h2, hp2, hev2⟩ := ih e1 hp1
    refine ⟨e2, evs1 ++ evs2, ?_, hp2, ?_⟩
    · simp only [MatchingEngine.addAll, h1, h2]
    · intro hall ev hev
      rcases List.mem_append.1 hev with h | h
      · exact hev1 (hall order (List.mem_cons_self _ _)) ev h
      · exact hev2 (fun o ho => hall o (List.mem_cons_of_mem _ ho)) ev h

theorem empty_positive : PositiveBook MatchingEngine.empty := by
  constructor <;> intro o ho <;> simp [MatchingEngine.empty, Heap.empty] at ho

theorem buyLoop_no_cross (order : Order) (fuel : Nat) (sells : Heap Order) (q : Nat)
    (h : ∀ r, sells.peek = some r → order.price < r.price) :
    buyLoop order fuel sells q = Except.ok (sells, q, []) := by
  unfold buyLoop
  cases hp : sells.peek with
  | none => rfl
  | some r => simp only [if_pos (h r hp)]

theorem sellLoop_no_cross (order : Order) (fuel : Nat) (buys : Heap Order) (q : Nat)
    (h : ∀ r, buys.peek = some r → order.price > r.price) :
    sellLoop order fuel buys q = Except.ok (buys, q, []) := by
  unfold sellLoop
  cases hp : buys.peek with
  | none => rfl
  | some r => simp only [if_pos (h r hp)]

theorem Heap.peek_mem {T : Type} {h : Heap T} {x : T} (hp : h.peek = some x) :
    x ∈ h.m_data := by
  obtain ⟨rest, hr⟩ := Heap.peek_eq_some hp
  subst hr
  exact List.mem_cons_self _ _

theorem OrderGreaterComparator_iff (a b : Order) :
    OrderGreaterComparator a b = true ↔
      a.price > b.price ∨ (a.price = b.price ∧ a.time_unix_nano < b.time_unix_nano) := by
  unfold OrderGreaterComparator
  split <;> simp <;> omega

theorem OrderLessComparator_iff (a b : Order) :
    OrderLessComparator a b = true ↔
      a.price < b.price ∨ (a.price = b.price ∧ a.time_unix_nano < b.time_unix_nano) := by
  unfold OrderLessComparator
  split <;> simp <;> omega

theorem OrderGreaterComparator_false_iff (a b : Order) :
    OrderGreaterComparator a b = false ↔
      ¬ (a.price > b.price ∨ (a.price = b.price ∧ a.time_unix_nano < b.time_unix_nano)) := by
  rw [← OrderGreaterComparator_iff]; simp

theorem OrderLessComparator_false_iff (a b : Order) :
    OrderLessComparator a b = false ↔
      ¬ (a.price < b.price ∨ (a.price = b.price ∧ a.time_unix_nano < b.time_unix_nano)) := by
  rw [← OrderLessComparator_iff]; simp

theorem OrderGreaterComparator_swo : StrictWeakOrder OrderGreaterComparator := by
  constructor
  · intro a
    rw [OrderGreaterComparator_false_iff]; omega
  · intro a b
    rw [OrderGreaterComparator_false_iff, OrderGreaterComparator_iff]; omega
  · intro a b c
    rw [OrderGreaterComparator_iff, OrderGreaterComparator_iff, OrderGreaterComparator_iff]
    omega
  · intro a b c
    simp only [OrderGreaterComparator_false_iff]
    omega

theorem OrderLessComparator_swo : StrictWeakOrder OrderLessComparator := by
  constructor
  · intro a
    rw [OrderLessComparator_false_iff]; omega
  · intro a b
    rw [OrderLessComparator_false_iff, OrderLessComparator_iff]; omega
  · intro a b c
    rw [OrderLessComparator_iff, OrderLessComparator_iff, OrderLessComparator_iff]
    omega
  · intro a b c
    simp only [OrderLessComparator_false_iff]
    omega

theorem Heap.pop_nil {T : Type} (m_compare : T → T → Bool) :
    (Heap.mk ([] : List T)).pop m_compare = Except.error Fault.EmptyQueueAccess := by
  simp [Heap.pop]

theorem heapify_zero {T : Type} (m_compare : T → T → Bool) (m_data : List T) :
    ∃ f, heapify m_compare m_data 0 = Except.error f := by
  unfold heapify
  cases m_data.length with
  | zero =>
    unfold heapifyLoop
    exact ⟨_, by rw [if_pos (Nat.zero_le _)]⟩
  | succ n =>
    unfold heapifyLoop
    refine ⟨Fault.IndexOutOfRange, ?_⟩
    simp [at1]

theorem heapify_perm_of_ok {T : Type} (m_compare : T → T → Bool) (m_data : List T)
    (index : Nat) (d : List T) (h : heapify m_compare m_data index = Except.ok d) :
    d.Perm m_data := by
  cases index with
  | zero =>
    obtain ⟨f, hf⟩ := heapify_zero m_compare m_data
    rw [hf] at h
    cases h
  | succ i =>
    obtain ⟨d1, hd1, hp⟩ := heapify_ok m_compare m_data (i + 1) (by omega)
    rw [hd1] at h
    cases h
    exact hp

theorem add_total (e : MatchingEngine) (order : Order) :
    ∃ res, e.add order = Except.ok res := by
  cases hty : order.type with
  | Buy =>
    obtain ⟨⟨s, q, evs⟩, hres, -⟩ :=
      buyLoop_subset order e.m_sell_orders.size e.m_sell_orders order.quantity (le_refl _)
    exact ⟨_, add_buy_eq e order hty s q evs hres⟩
  | Sell =>
    obtain ⟨⟨b, q, evs⟩, hres, -⟩ :=
      sellLoop_subset order e.m_buy_orders.size e.m_buy_orders order.quantity (le_refl _)
    exact ⟨_, add_sell_eq e order hty b q evs hres⟩

/-- All iterations of the Buy loop but the last one remove an order. -/
theorem buyLoop_steps (order : Order) (fuel : Nat) (sells : Heap Order) (q : Nat)
    (hf : sells.size ≤ fuel) :
    ∃ res, buyLoop order fuel sells q = Except.ok res ∧
      res.2.2.length + res.1.size ≤ sells.size + 1 ∧ res.1.size ≤ sells.size := by
  refine buyLoop_induct order
    (fun sells _ res =>
      res.2.2.length + res.1.size ≤ sells.size + 1 ∧ res.1.size ≤ sells.size)
    ?_ ?_ ?_ ?_ ?_ ?_ fuel sells q hf
  · intro q; simp [Heap.size]
  · intro r rest q _; simp [Heap.size]
  · intro r rest q _ _ _; simp [Heap.size]; omega
  · intro r rest q d _ _ _ hd
    have := hd.length_eq
    simp [Heap.size]; omega
  · intro r rest q d _ _ _ hd
    have := hd.length_eq
    simp [Heap.size]; omega
  · intro r rest q d res _ _ _ hd ih
    have := hd.length_eq
    simp [Heap.size] at ih ⊢; omega

theorem sellLoop_steps (order : Order) (fuel : Nat) (buys : Heap Order) (q : Nat)
    (hf : buys.size ≤ fuel) :
    ∃ res, sellLoop order fuel buys q = Except.ok res ∧
      res.2.2.length + res.1.size ≤ buys.size + 1 ∧ res.1.size ≤ buys.size := by
  refine sellLoop_induct order
    (fun buys _ res =>
      res.2.2.length + res.1.size ≤ buys.size + 1 ∧ res.1.size ≤ buys.size)
    ?_ ?_ ?_ ?_ ?_ ?_ fuel buys q hf
  · intro q; simp [Heap.size]
  · intro r rest q _; simp [Heap.size]
  · intro r rest q _ _ _; simp [Heap.size]; omega
  · intro r rest q d _ _ _ hd
    have := hd.length_eq
    simp [Heap.size]; omega
  · intro r rest q d _ _ _ hd
    have := hd.length_eq
    simp [Heap.size]; omega
  · intro r rest q d res _ _ _ hd ih
    have := hd.length_eq
    simp [Heap.size] at ih ⊢; omega

section SiftLemmas

variable {T : Type}

theorem StrictWeakOrder.neg_trans {cmp : T → T → Bool} (h : StrictWeakOrder cmp)
    (a b c : T) (hab : cmp a b = false) (hbc : cmp b c = false) : cmp a c = false := by
  cases hac : cmp a c with
  | false => rfl
  | true =>
    cases hba : cmp b a with
    | true =>
      have := h.trans b a c hba hac
      rw [hbc] at this
      cases this
    | false =>
      cases hcb : cmp c b with
      | true =>
        have := h.trans a c b hac hcb
        rw [hab] at this
        cases this
      | false =>
        have := (h.incomp_trans a b c hab hba hbc hcb).1
        rw [hac] at this
        cases this

theorem swap1_get (m_data : List T) (a b : Nat) (ha1 : 1 ≤ a) (ha2 : a ≤ m_data.length)
    (hb1 : 1 ≤ b) (hb2 : b ≤ m_data.length) (hab : a ≠ b) :
    ∃ d, swap1 m_data a b = Except.ok d ∧ d.Perm m_data ∧ d.length = m_data.length ∧
      d[a - 1]? = m_data[b - 1]? ∧ d[b - 1]? = m_data[a - 1]? ∧
      ∀ t, 1 ≤ t → t ≠ a → t ≠ b → d[t - 1]? = m_data[t - 1]? := by
  obtain ⟨x, hx, hx1⟩ := at1_ok m_data a ha1 ha2
  obtain ⟨y, hy, hy1⟩ := at1_ok m_data b hb1 hb2
  have hp := set_set_perm m_data _ _ x y hx1 hy1
  refine ⟨(m_data.set (a - 1) y).set (b - 1) x, ?_, hp, hp.length_eq, ?_, ?_, ?_⟩
  · unfold swap1
    rw [hx, hy]
  · rw [List.getElem?_set_ne (by omega), List.getElem?_set, if_pos rfl,
      if_pos (by omega), hy1]
  · rw [List.getElem?_set, if_pos rfl, if_pos (by simp; omega), hx1]
  · intro t ht hta htb
    rw [List.getElem?_set_ne (by omega), List.getElem?_set_ne (by omega)]

end SiftLemmas

section SiftStep

variable {T : Type}

/-- One iteration of the `heapify` loop at an index that has a left child: the
index `m` chosen by the two comparisons holds an element that neither the
element at `j` nor a child of `j` is strictly better than. -/
theorem heapifyLoop_step {cmp : T → T → Bool} (hswo : StrictWeakOrder cmp) (fuel : Nat)
    (d : List T) (j : Nat) (h1 : 1 ≤ j) (hc : j ≤ d.length / 2) :
    ∃ m xm, 1 ≤ m ∧ m ≤ d.length ∧ (m = j ∨ (m ≠ j ∧ m / 2 = j)) ∧ d[m - 1]? = some xm ∧
      (∀ c x, (c = j ∨ c / 2 = j) → 1 ≤ c → c ≤ d.length → d[c - 1]? = some x →
        cmp x xm = false) ∧
      heapifyLoop cmp (fuel + 1) d j =
        (if m ≠ j then
          match swap1 d m j with
          | Except.error f => Except.error f
          | Except.ok d1 => heapifyLoop cmp fuel d1 m
         else Except.ok d) := by
  have hl : j * 2 ≤ d.length := by omega
  obtain ⟨l, hl1, hl2⟩ := at1_ok d (j * 2) (by omega) hl
  obtain ⟨xj, hj1, hj2⟩ := at1_ok d j h1 (by omega)
  have hcases : ∀ c, (c = j ∨ c / 2 = j) → 1 ≤ c → c = j ∨ c = j * 2 ∨ c = j * 2 + 1 := by
    intro c hc1 hc2; omega
  rw [heapifyLoop]
  simp only [if_pos hc, if_pos hl, hl1, hj1]
  by_cases hr : j * 2 + 1 ≤ d.length
  · obtain ⟨r, hr1, hr2⟩ := at1_ok d (j * 2 + 1) (by omega) hr
    simp only [if_pos hr, hr1]
    cases hb : cmp l xj with
    | true =>
      simp only [if_true, hl1]
      cases hb2 : cmp r l with
      | true =>
        refine ⟨j * 2 + 1, r, by omega, hr, Or.inr ⟨by omega, by omega⟩, hr2, ?_, ?_⟩
        · intro c x hc1 hc2 hc3 hx
          rcases hcases c hc1 hc2 with h | h | h
          · subst h
            rw [hj2] at hx; cases hx
            exact hswo.asymm _ _ (hswo.trans _ _ _ hb2 hb)
          · subst h
            rw [hl2] at hx; cases hx
            exact hswo.asymm _ _ hb2
          · subst h
            rw [hr2] at hx; cases hx
            exact hswo.irrefl _
        · simp
      | false =>
        refine ⟨j * 2, l, by omega, hl, Or.inr ⟨by omega, by omega⟩, hl2, ?_, ?_⟩
        · intro c x hc1 hc2 hc3 hx
          rcases hcases c hc1 hc2 with h | h | h
          · subst h
            rw [hj2] at hx; cases hx
            exact hswo.asymm _ _ hb
          · subst h
            rw [hl2] at hx; cases hx
            exact hswo.irrefl _
          · subst h
            rw [hr2] at hx; cases hx
            exact hb2
        · simp
    | false =>
      simp only [Bool.false_eq_true, if_false, hj1]
      cases hb2 : cmp r xj with
      | true =>
        refine ⟨j * 2 + 1, r, by omega, hr, Or.inr ⟨by omega, by omega⟩, hr2, ?_, ?_⟩
        · intro c x hc1 hc2 hc3 hx
          rcases hcases c hc1 hc2 with h | h | h
          · subst h
            rw [hj2] at hx; cases hx
            exact hswo.asymm _ _ hb2
          · subst h
            rw [hl2] at hx; cases hx
            exact hswo.neg_trans _ _ _ hb (hswo.asymm _ _ hb2)
          · subst h
            rw [hr2] at hx; cases hx
            exact hswo.irrefl _
        · simp
      | false =>
        refine ⟨j, xj, h1, by omega, Or.inl rfl, hj2, ?_, ?_⟩
        · intro c x hc1 hc2 hc3 hx
          rcases hcases c hc1 hc2 with h | h | h
          · subst h
            rw [hj2] at hx; cases hx
            exact hswo.irrefl _
          · subst h
            rw [hl2] at hx; cases hx
            exact hb
          · subst h
            rw [hr2] at hx; cases hx
            exact hb2
        · simp
  · simp only [if_neg hr]
    cases hb : cmp l xj with
    | true =>
      refine ⟨j * 2, l, by omega, hl, Or.inr ⟨by omega, by omega⟩, hl2, ?_, ?_⟩
      · intro c x hc1 hc2 hc3 hx
        rcases hcases c hc1 hc2 with h | h | h
        · subst h
          rw [hj2] at hx; cases hx
          exact hswo.asymm _ _ hb
        · subst h
          rw [hl2] at hx; cases hx
          exact hswo.irrefl _
        · omega
      · simp
    | false =>
      refine ⟨j, xj, h1, by omega, Or.inl rfl, hj2, ?_, ?_⟩
      · intro c x hc1 hc2 hc3 hx
        rcases hcases c hc1 hc2 with h | h | h
        · subst h
          rw [hj2] at hx; cases hx
          exact hswo.irrefl _
        · subst h
          rw [hl2] at hx; cases hx
          exact hb
        · omega
      · simp

end SiftStep

section SiftDown

variable {T : Type}

/-- Sift-down: when every parent from `k` on except `j` satisfies the heap
invariant and no child of `j` is strictly better than the parent of `j`, the
loop started at `j` returns an array satisfying the invariant from `k` on. -/
theorem heapifyLoop_sift {cmp : T → T → Bool} (hswo : StrictWeakOrder cmp) :
    ∀ (fuel : Nat) (d : List T) (j k : Nat), 1 ≤ k → k ≤ j → d.length ≤ j + fuel →
      (∀ i x y, 2 ≤ i → i ≤ d.length → k ≤ i / 2 → i / 2 ≠ j →
        d[i - 1]? = some x → d[i / 2 - 1]? = some y → cmp x y = false) →
      (∀ c x y, 2 ≤ j → k ≤ j / 2 → c / 2 = j → c ≤ d.length →
        d[c - 1]? = some x → d[j / 2 - 1]? = some y → cmp x y = false) →
      ∃ d1, heapifyLoop cmp fuel d j = Except.ok d1 ∧ d1.Perm d ∧ HeapFrom cmp d1 k := by
  intro fuel
  induction fuel with
  | zero =>
    intro d j k hk hkj hlen H1 _
    refine ⟨d, ?_, List.Perm.refl _, ?_⟩
    · unfold heapifyLoop
      rw [if_neg (by omega)]
    · intro i x y hi1 hi2 hi3 hx hy
      exact H1 i x y hi1 hi2 hi3 (by omega) hx hy
  | succ fuel ih =>
    intro d j k hk hkj hlen H1 H2
    by_cases hc : j ≤ d.length / 2
    · obtain ⟨m, xm, hm1, hm2, hmj, hxm, hbest, heq⟩ :=
        heapifyLoop_step hswo fuel d j (by omega) hc
      rw [heq]
      rcases hmj with hmj | ⟨hne, hmj⟩
      · subst hmj
        rw [if_neg (by simp)]
        refine ⟨d, rfl, List.Perm.refl _, ?_⟩
        intro i x y hi1 hi2 hi3 hx hy
        by_cases hij : i / 2 = m
        · rw [hij, hxm] at hy
          cases hy
          exact hbest i x (Or.inr hij) (by omega) hi2 hx
        · exact H1 i x y hi1 hi2 hi3 hij hx hy
      · rw [if_pos hne]
        obtain ⟨d1, hd1, hp1, hlen1, hga, hgb, hgo⟩ :=
          swap1_get d m j hm1 hm2 (by omega) (by omega) hne
        rw [hd1]
        obtain ⟨xj, -, hxj⟩ := at1_ok d j (by omega) (by omega)
        have H1n : ∀ i x y, 2 ≤ i → i ≤ d1.length → k ≤ i / 2 → i / 2 ≠ m →
            d1[i - 1]? = some x → d1[i / 2 - 1]? = some y → cmp x y = false := by
          intro i x y hi1 hi2 hi3 hi4 hx hy
          rw [hlen1] at hi2
          by_cases hij : i / 2 = j
          · rw [hij, hgb, hxm] at hy
            cases hy
            by_cases him : i = m
            · subst him
              rw [hga, hxj] at hx
              cases hx
              exact hbest j _ (Or.inl rfl) (by omega) (by omega) hxj
            · rw [hgo i (by omega) him (by omega)] at hx
              exact hbest i x (Or.inr hij) (by omega) hi2 hx
          · by_cases hi : i = j
            · subst hi
              rw [hgb, hxm] at hx
              cases hx
              rw [hgo (i / 2) (by omega) (by omega) (by omega)] at hy
              exact H2 m _ y hi1 hi3 hmj hm2 hxm hy
            · rw [hgo i (by omega) (by omega) hi] at hx
              rw [hgo (i / 2) (by omega) hi4 hij] at hy
              exact H1 i x y hi1 hi2 hi3 hij hx hy
        have H2n : ∀ c x y, 2 ≤ m → k ≤ m / 2 → c / 2 = m → c ≤ d1.length →
            d1[c - 1]? = some x → d1[m / 2 - 1]? = some y → cmp x y = false := by
          intro c x y _ _ hc3 hc4 hx hy
          rw [hlen1] at hc4
          rw [hmj, hgb, hxm] at hy
          cases hy
          rw [hgo c (by omega) (by omega) (by omega)] at hx
          exact H1 c x _ (by omega) hc4 (by omega) (by omega) hx (by rw [hc3]; exact hxm)
        obtain ⟨d2, hd2, hp2, hheap⟩ :=
          ih d1 m k hk (by omega) (by rw [hlen1]; omega) H1n H2n
        exact ⟨d2, hd2, hp2.trans hp1, hheap⟩
    · refine ⟨d, ?_, List.Perm.refl _, ?_⟩
      · unfold heapifyLoop
        rw [if_neg hc]
      · intro i x y hi1 hi2 hi3 hx hy
        exact H1 i x y hi1 hi2 hi3 (by omega) hx hy

end SiftDown

section HeapCorrect

variable {T : Type}

/-- In an array satisfying the heap invariant no element is strictly better
than the element at position 0. -/
theorem IsHeap.root_extreme {cmp : T → T → Bool} (hswo : StrictWeakOrder cmp)
    {d : List T} (hd : IsHeap cmp d) (r : T) (hr : d[0]? = some r) :
    ∀ (i : Nat) (x : T), 1 ≤ i → d[i - 1]? = some x → cmp x r = false := by
  intro i
  induction i using Nat.strong_induction_on with
  | _ i ih =>
    intro x hi hx
    by_cases h1 : i = 1
    · subst h1
      rw [hr] at hx
      cases hx
      exact hswo.irrefl _
    · have hlt : i - 1 < d.length := by
        rcases Nat.lt_or_ge (i - 1) d.length with h | h
        · exact h
        · rw [List.getElem?_eq_none h] at hx
          cases hx
      obtain ⟨y, -, hy⟩ := at1_ok d (i / 2) (by omega) (by omega)
      have h2 := hd i x y (by omega) (by omega) (by omega) hx hy
      have h3 := ih (i / 2) (by omega) y (by omega) hy
      exact hswo.neg_trans _ _ _ h2 h3

theorem IsHeap.root_extreme_mem {cmp : T → T → Bool} (hswo : StrictWeakOrder cmp)
    {d : List T} (hd : IsHeap cmp d) (r : T) (hr : d[0]? = some r) :
    ∀ x ∈ d, cmp x r = false := by
  intro x hx
  obtain ⟨n, hn⟩ := List.getElem?_of_mem hx
  exact hd.root_extreme hswo r hr (n + 1) x (by omega) (by simpa using hn)

theorem fromLoop_heap {cmp : T → T → Bool} (hswo : StrictWeakOrder cmp) :
    ∀ (i : Nat) (d : List T), HeapFrom cmp d (i + 1) →
      ∃ d1, fromLoop cmp i d = Except.ok d1 ∧ d1.Perm d ∧ IsHeap cmp d1 := by
  intro i
  induction i with
  | zero =>
    intro d hd
    exact ⟨d, rfl, List.Perm.refl _, hd⟩
  | succ i ih =>
    intro d hd
    obtain ⟨d1, hd1, hp1, hh1⟩ :=
      heapifyLoop_sift hswo d.length d (i + 1) (i + 1) (by omega) (le_refl _) (by omega)
        (fun j x y hj1 hj2 hj3 hj4 hx hy => hd j x y hj1 hj2 (by omega) hx hy)
        (fun c x y _ hk _ _ _ _ => by omega)
    obtain ⟨d2, hd2, hp2, hh2⟩ := ih d1 hh1
    refine ⟨d2, ?_, hp2.trans hp1, hh2⟩
    simp only [fromLoop, heapify, hd1, hd2]

end HeapCorrect

section PopCorrect

variable {T : Type}

theorem Heap.pop_heap {cmp : T → T → Bool} (hswo : StrictWeakOrder cmp) (x : T)
    (rest : List T) (hheap : IsHeap cmp (x :: rest)) :
    ∃ d, (Heap.mk (x :: rest)).pop cmp = Except.ok (x, Heap.mk d) ∧ d.Perm rest ∧
      IsHeap cmp d := by
  unfold Heap.pop
  rcases List.eq_nil_or_concat rest with hnil | ⟨L, b, hL⟩
  · subst hnil
    obtain ⟨d, hd, hp⟩ := heapify_ok cmp ([] : List T) 1 (le_refl 1)
    have hnil : d = [] := List.Perm.eq_nil hp
    subst hnil
    refine ⟨[], ?_, hp, ?_⟩
    · simp [hd]
    · intro i x y hi1 hi2
      simp at hi2
      omega
  · rw [List.concat_eq_append] at hL
    subst hL
    have h1 : (x :: (L ++ [b])).getLast? = some b := by
      rw [← List.cons_append, List.getLast?_append]
      simp
    have h2 : ((x :: (L ++ [b])).set 0 b).dropLast = b :: L := by
      rw [List.set_cons_zero, ← List.cons_append, List.dropLast_concat]
    have hget : ∀ t, 1 ≤ t → t < (b :: L).length →
        (b :: L)[t]? = (x :: (L ++ [b]))[t]? := by
      intro t ht1 ht2
      obtain ⟨s, rfl⟩ : ∃ s, t = s + 1 := ⟨t - 1, by omega⟩
      simp only [List.getElem?_cons_succ]
      simp only [List.length_cons] at ht2
      rw [List.getElem?_append_left (by omega)]
    obtain ⟨d, hd, hp, hh⟩ :=
      heapifyLoop_sift hswo (b :: L).length (b :: L) 1 1 (le_refl _) (le_refl _) (by omega)
        (fun i u v hi1 hi2 hi3 hi4 hu hv => by
          rw [hget (i - 1) (by omega) (by omega)] at hu
          rw [hget (i / 2 - 1) (by omega) (by omega)] at hv
          refine hheap i u v hi1 ?_ hi3 hu hv
          simp only [List.length_cons, List.length_append, List.length_nil] at hi2 ⊢
          omega)
        (fun c u v h2 _ _ _ _ _ => by omega)
    refine ⟨d, ?_, hp.trans (List.perm_append_singleton b L).symm, hh⟩
    simp only [List.getElem?_cons_zero, h1, h2]
    unfold heapify
    rw [hd]

end PopCorrect

theorem heapThreeSells_isHeap : IsHeap OrderLessComparator heapThreeSells.m_data := by
  intro i x y h2 hn _ hx hy
  have hi : i = 2 ∨ i = 3 := by
    simp [heapThreeSells] at hn
    omega
  rcases hi with rfl | rfl <;> simp [heapThreeSells] at hx hy <;> subst hx hy <;> decide

theorem whileLoop_spec (price : Int) :
    ∀ (l : List IndexedElem) (fuel : Nat), l.length ≤ fuel →
      ∃ popped remaining found,
        whileLoop price fuel (Stack.mk l) = Except.ok (found, Stack.mk remaining) ∧
        l = popped ++ remaining ∧ (∀ s ∈ popped, s.value ≤ price) ∧
        ((found = none ∧ remaining = []) ∨
          ∃ top rest, remaining = top :: rest ∧ found = some top.index ∧
            price < top.value) := by
  intro l
  induction l with
  | nil =>
    intro fuel _
    refine ⟨[], [], none, ?_, rfl, by simp, Or.inl ⟨rfl, rfl⟩⟩
    cases fuel <;> rfl
  | cons a l ih =>
    intro fuel hf
    by_cases hlt : price < a.value
    · refine ⟨[], a :: l, some a.index, ?_, rfl, by simp, Or.inr ⟨a, l, rfl, rfl, hlt⟩⟩
      cases fuel <;> simp only [whileLoop, Stack.peek, if_pos hlt]
    · cases fuel with
      | zero => simp at hf
      | succ fuel =>
        obtain ⟨popped, remaining, found, h1, h2, h3, h4⟩ :=
          ih fuel (by simpa using hf)
        refine ⟨a :: popped, remaining, found, ?_, by rw [h2]; rfl, ?_, h4⟩
        · rw [whileLoop]
          simp only [Stack.peek, if_neg hlt, Stack.pop]
          exact h1
        · intro s hs
          rcases List.mem_cons.1 hs with h | h
          · subst h; omega
          · exact h3 s h

theorem forLoop_spec (prices : List Int) :
    ∀ (i : Nat) (result : List Nat) (l : List IndexedElem),
      i ≤ prices.length → result.length = prices.length →
      (∀ t, t < i → result[t]? = some 0) →
      (∀ t p, i ≤ t → prices[t]? = some p →
        ∃ r, result[t]? = some r ∧ IsNextGreater prices t p r) →
      l.Pairwise (fun a b => a.index < b.index) →
      (∀ s ∈ l, i ≤ s.index ∧ prices[s.index]? = some s.value) →
      (∀ j q, i ≤ j → prices[j]? = some q → ∃ s ∈ l, s.index ≤ j ∧ q ≤ s.value) →
      ∃ res, forLoop prices i result (Stack.mk l) = Except.ok res ∧
        res.length = prices.length ∧
        ∀ t p, prices[t]? = some p → ∃ r, res[t]? = some r ∧ IsNextGreater prices t p r := by
  intro i
  induction i with
  | zero =>
    intro result l _ hlen _ hdone _ _ _
    exact ⟨result, rfl, hlen, fun t p hp => hdone t p (Nat.zero_le _) hp⟩
  | succ i ih =>
    intro result l hi hlen hzero hdone hsorted hmem hdom
    have hip : i < prices.length := by omega
    have hpi : prices[i]? = some prices[i] := List.getElem?_eq_getElem hip
    generalize prices[i] = p at hpi
    obtain ⟨popped, remaining, found, hw, hsplit, hpop, hfound⟩ :=
      whileLoop_spec p l l.length (le_refl _)
    subst hsplit
    have hsorted2 := List.pairwise_append.1 hsorted
    -- the entry written for the index `i`
    have hcorrect : ∃ r, (match found with
          | some index => result.set i index
          | none => result)[i]? = some r ∧ IsNextGreater prices i p r := by
      rcases hfound with ⟨hnone, hrem⟩ | ⟨top, rest, hrem, hsome, hlt⟩
      · subst hnone hrem
        refine ⟨0, hzero i (by omega), ?_, fun _ => rfl⟩
        rintro ⟨j, q, hj, hq, hpq⟩
        obtain ⟨s, hs, -, hqs⟩ := hdom j q (by omega) hq
        have := hpop s (by simpa using hs)
        omega
      · subst hsome hrem
        have htop := hmem top (by simp)
        refine ⟨top.index, ?_, ?_, ?_⟩
        · rw [List.getElem?_set, if_pos rfl, if_pos (by omega : i < result.length)]
        · intro _
          refine ⟨top.value, by omega, htop.2, hlt, ?_⟩
          intro j q1 hj1 hj2 hq1
          obtain ⟨s, hs, hsj, hqs⟩ := hdom j q1 (by omega) hq1
          rcases List.mem_append.1 hs with h | h
          · have := hpop s h
            omega
          · rcases List.mem_cons.1 h with h | h
            · subst h; omega
            · have := (List.pairwise_cons.1 hsorted2.2.1).1 s h
              omega
        · intro hall
          have := hall top.index top.value (by omega) htop.2
          omega
    obtain ⟨r, hr1, hr2⟩ := hcorrect
    have hkeep : ∀ t, t ≠ i → (match found with
          | some index => result.set i index
          | none => result)[t]? = result[t]? := by
      intro t ht
      cases found with
      | none => rfl
      | some index => simp only [List.getElem?_set_ne (Ne.symm ht)]
    have hlen1 : (match found with
          | some index => result.set i index
          | none => result).length = prices.length := by
      cases found with
      | none => exact hlen
      | some index => simpa using hlen
    obtain ⟨res, hres, hreslen, hresok⟩ :=
      ih _ (IndexedElem.mk p i :: remaining) (by omega) hlen1
        (fun t ht => by rw [hkeep t (by omega)]; exact hzero t (by omega))
        (fun t q ht hq => by
          by_cases hti : t = i
          · subst hti
            rw [hpi] at hq
            cases hq
            exact ⟨r, hr1, hr2⟩
          · rw [hkeep t hti]
            exact hdone t q (by omega) hq)
        (by
          refine List.pairwise_cons.2 ⟨?_, hsorted2.2.1⟩
          intro s hs
          have := (hmem s (List.mem_append_right _ hs)).1
          simpa using this)
        (by
          intro s hs
          rcases List.mem_cons.1 hs with h | h
          · subst h
            exact ⟨le_refl _, hpi⟩
          · have := hmem s (List.mem_append_right _ h)
            exact ⟨by omega, this.2⟩)
        (by
          intro j q hj hq
          by_cases hji : j = i
          · subst hji
            rw [hpi] at hq
            cases hq
            exact ⟨IndexedElem.mk p j, List.mem_cons_self _ _, le_refl _, le_refl _⟩
          · obtain ⟨s, hs, hsj, hqs⟩ := hdom j q (by omega) hq
            rcases List.mem_append.1 hs with h | h
            · have := hpop s h
              exact ⟨IndexedElem.mk p i, List.mem_cons_self _ _, by simpa using hj,
                by simp only; omega⟩
            · exact ⟨s, List.mem_cons_of_mem _ h, hsj, hqs⟩)
    refine ⟨res, ?_, hreslen, hresok⟩
    simp only [forLoop, hpi, hw, Stack.push]
    exact hres

/-! ## The claims -/

/-- C2 (code defect). After sells at 100 and 90 and a buy at 95, `add` has
written no event and the book stores the buy at 95 together with the sell at
90: the no-crossing condition fails. -/
theorem C2_book_crosses :
    ∃ e evs, MatchingEngine.empty.addAll ordersCrossing = Except.ok (e, evs) ∧
      e = MatchingEngine.mk
          (Heap.mk [Order.mk 1 100 1 OrderType.Sell 1, Order.mk 2 90 1 OrderType.Sell 2])
          (Heap.mk [Order.mk 3 95 1 OrderType.Buy 3]) ∧
      evs = [] ∧ ¬ NoCrossing e :=
  ⟨MatchingEngine.mk
      (Heap.mk [Order.mk 1 100 1 OrderType.Sell 1, Order.mk 2 90 1 OrderType.Sell 2])
      (Heap.mk [Order.mk 3 95 1 OrderType.Buy 3]), [],
    by decide, rfl, rfl, by decide⟩

/-- C3 (code defect). With the sell of timestamp 2 (id 11) submitted before the
sell of timestamp 1 (id 10) at the same price, a crossing buy of 5 shares is
matched with id 11 first and with id 10 second. -/
theorem C3_later_timestamp_matched_first :
    MatchingEngine.empty.addAll ordersLateFirst
      = Except.ok
        (MatchingEngine.mk (Heap.mk [Order.mk 10 100 3 OrderType.Sell 1]) (Heap.mk []),
          [MatchEvent.mk 3 11, MatchEvent.mk 2 10]) := by
  decide

/-- C4 (code defect). On an empty `MinHeap<Order, OrderLessComparator>`, pushing
a sell at 100 and then a sell at 90 leaves the vector in insertion order:
`peek` returns the order at 100 although the stored order at 90 is strictly
better under the comparator. -/
theorem C4_peek_not_extreme :
    (Heap.empty : Heap Order).push OrderLessComparator (Order.mk 1 100 1 OrderType.Sell 1)
      = Except.ok (Heap.mk [Order.mk 1 100 1 OrderType.Sell 1]) ∧
    (Heap.mk [Order.mk 1 100 1 OrderType.Sell 1]).push OrderLessComparator
        (Order.mk 2 90 1 OrderType.Sell 2)
      = Except.ok
        (Heap.mk [Order.mk 1 100 1 OrderType.Sell 1, Order.mk 2 90 1 OrderType.Sell 2]) ∧
    (Heap.mk [Order.mk 1 100 1 OrderType.Sell 1, Order.mk 2 90 1 OrderType.Sell 2]).peek
      = some (Order.mk 1 100 1 OrderType.Sell 1) ∧
    OrderLessComparator (Order.mk 2 90 1 OrderType.Sell 2)
      (Order.mk 1 100 1 OrderType.Sell 1) = true := by
  decide

/-- C5 (code defect). After a sell of 10 at 100 and a buy of 4 at 105, one event
of 4 shares is written and the sell order is still stored with quantity 10,
not 6. -/
theorem C5_fill_not_persisted :
    MatchingEngine.empty.addAll ordersScenarioTwo
      = Except.ok
        (MatchingEngine.mk (Heap.mk [Order.mk 1 100 10 OrderType.Sell 1]) (Heap.mk []),
          [MatchEvent.mk 4 1]) := by
  decide

/-- C6 (code defect). A sell of 5 against buys of 3 and 10: the second event
carries 5 shares, while the remaining quantity is 5 - 3 = 2 and the minimum of
2 and 10 is 2. -/
theorem C6_sell_fill_exceeds_remaining :
    MatchingEngine.empty.addAll ordersSellFill
      = Except.ok
        (MatchingEngine.mk (Heap.mk []) (Heap.mk [Order.mk 2 100 10 OrderType.Buy 2]),
          [MatchEvent.mk 3 1, MatchEvent.mk 5 2]) ∧
    (MatchEvent.mk 5 2).quantity ≠ min (5 - 3) (Order.mk 2 100 10 OrderType.Buy 2).quantity := by
  decide

/-- C7 (code defect). A sell of 5 against buys of 3 and 4: the events carry 3
and 4 shares and the remainder pushed on the sell queue has quantity
2^32 - 2, which is neither 5 - (3 + 4) nor at most 5. -/
theorem C7_sell_remainder_wraps :
    MatchingEngine.empty.addAll ordersSellWrap
      = Except.ok
        (MatchingEngine.mk (Heap.mk [Order.mk 3 100 4294967294 OrderType.Sell 3]) (Heap.mk []),
          [MatchEvent.mk 3 1, MatchEvent.mk 4 2]) ∧
    (Order.mk 3 100 4294967294 OrderType.Sell 3).quantity
      ≠ 5 - sumMatched [MatchEvent.mk 3 1, MatchEvent.mk 4 2] ∧
    5 < (Order.mk 3 100 4294967294 OrderType.Sell 3).quantity := by
  decide

/-- C8 (price-crossing rule). For every book state and every incoming order,
`add` returns; each match event of an incoming Buy names an order of the sell
queue whose price is at most the incoming price, each match event of an
incoming Sell names an order of the buy queue whose price is at least the
incoming price; and when the opposing order returned by `peek` has the incoming
price and both quantities are positive, at least one event is reported. -/
theorem C8_price_crossing_rule (e : MatchingEngine) (order : Order) :
    ∃ e1 evs, e.add order = Except.ok (e1, evs) ∧
      (order.type = OrderType.Buy → ∀ ev ∈ evs,
        ∃ r ∈ e.m_sell_orders.m_data, r.id = ev.id ∧ r.price ≤ order.price) ∧
      (order.type = OrderType.Sell → ∀ ev ∈ evs,
        ∃ r ∈ e.m_buy_orders.m_data, r.id = ev.id ∧ r.price ≥ order.price) ∧
      (order.type = OrderType.Buy → ∀ r, e.m_sell_orders.peek = some r →
        r.price = order.price → 0 < r.quantity → 0 < order.quantity → evs ≠ []) ∧
      (order.type = OrderType.Sell → ∀ r, e.m_buy_orders.peek = some r →
        r.price = order.price → 0 < r.quantity → 0 < order.quantity → evs ≠ []) := by
  cases hty : order.type with
  | Buy =>
    obtain ⟨⟨s, q, evs⟩, hres, hev⟩ :=
      buyLoop_events order e.m_sell_orders.size e.m_sell_orders order.quantity (le_refl _)
    obtain ⟨res2, hres2, hfirst⟩ :=
      buyLoop_first order e.m_sell_orders.size e.m_sell_orders order.quantity (le_refl _)
    have heq := ok_unique hres2 hres
    subst heq
    refine ⟨_, evs, add_buy_eq e order hty s q evs hres, fun _ => hev, ?_, ?_, ?_⟩
    · intro h; cases h
    · intro _ r hr hpr _ _
      exact hfirst r hr (le_of_eq hpr)
    · intro h; cases h
  | Sell =>
    obtain ⟨⟨b, q, evs⟩, hres, hev⟩ :=
      sellLoop_events order e.m_buy_orders.size e.m_buy_orders order.quantity (le_refl _)
    obtain ⟨res2, hres2, hfirst⟩ :=
      sellLoop_first order e.m_buy_orders.size e.m_buy_orders order.quantity (le_refl _)
    have heq := ok_unique hres2 hres
    subst heq
    refine ⟨_, evs, add_sell_eq e order hty b q evs hres, ?_, fun _ => hev, ?_, ?_⟩
    · intro h; cases h
    · intro h; cases h
    · intro _ r hr hpr _ _
      exact hfirst r hr (le_of_eq hpr.symm)

/-- C8 witness: a buy of 4 at 100 against a stored sell of 10 at 100 reports an
event. -/
theorem C8_price_crossing_rule_witness :
    ∃ e1 evs,
      (MatchingEngine.mk (Heap.mk [Order.mk 1 100 10 OrderType.Sell 1]) (Heap.mk [])).add
        (Order.mk 2 100 4 OrderType.Buy 2) = Except.ok (e1, evs) ∧ evs ≠ [] := by
  obtain ⟨e1, evs, h, -, -, hb, -⟩ :=
    C8_price_crossing_rule
      (MatchingEngine.mk (Heap.mk [Order.mk 1 100 10 OrderType.Sell 1]) (Heap.mk []))
      (Order.mk 2 100 4 OrderType.Buy 2)
  exact ⟨e1, evs, h, hb rfl _ rfl rfl (by decide) (by decide)⟩

/-- C9 (positive stored quantity). After every finite sequence of `add` calls
on the empty engine, `add` has returned each time and every order stored in
the buy queue or in the sell queue has a quantity greater than zero; and for
every book state, a matching loop that ends with the local `quantity` equal
to zero leaves the incoming order's own side queue as it was. -/
theorem C9_positive_stored_quantity :
    (∀ orders : List Order, ∃ e evs,
      MatchingEngine.empty.addAll orders = Except.ok (e, evs) ∧
      (∀ o ∈ e.m_buy_orders.m_data, 0 < o.quantity) ∧
      (∀ o ∈ e.m_sell_orders.m_data, 0 < o.quantity)) ∧
    (∀ (e : MatchingEngine) (order : Order), order.type = OrderType.Buy →
      ∃ s q evs e1,
        buyLoop order e.m_sell_orders.size e.m_sell_orders order.quantity
          = Except.ok (s, q, evs) ∧
        e.add order = Except.ok (e1, evs) ∧
        (q = 0 → e1.m_buy_orders = e.m_buy_orders)) ∧
    (∀ (e : MatchingEngine) (order : Order), order.type = OrderType.Sell →
      ∃ b q evs e1,
        sellLoop order e.m_buy_orders.size e.m_buy_orders order.quantity
          = Except.ok (b, q, evs) ∧
        e.add order = Except.ok (e1, evs) ∧
        (q = 0 → e1.m_sell_orders = e.m_sell_orders)) := by
  refine ⟨?_, ?_, ?_⟩
  · intro orders
    obtain ⟨e, evs, h, hp, -⟩ := addAll_positive orders MatchingEngine.empty empty_positive
    exact ⟨e, evs, h, hp.1, hp.2⟩
  · intro e order hty
    obtain ⟨⟨s, q, evs⟩, hres, -⟩ :=
      buyLoop_subset order e.m_sell_orders.size e.m_sell_orders order.quantity (le_refl _)
    refine ⟨s, q, evs, _, hres, add_buy_eq e order hty s q evs hres, ?_⟩
    intro hq
    simp [hq]
  · intro e order hty
    obtain ⟨⟨b, q, evs⟩, hres, -⟩ :=
      sellLoop_subset order e.m_buy_orders.size e.m_buy_orders order.quantity (le_refl _)
    refine ⟨b, q, evs, _, hres, add_sell_eq e order hty b q evs hres, ?_⟩
    intro hq
    simp [hq]

/-- C10 (no zero-quantity events). For every finite sequence of `add` calls on
the empty engine in which every submitted order has a quantity greater than
zero, `add` returns each time and every reported match event has a matched
quantity greater than zero. -/
theorem C10_no_zero_quantity_events (orders : List Order)
    (h : ∀ o ∈ orders, 0 < o.quantity) :
    ∃ e evs, MatchingEngine.empty.addAll orders = Except.ok (e, evs) ∧
      ∀ ev ∈ evs, 0 < ev.quantity := by
  obtain ⟨e, evs, hrun, -, hev⟩ := addAll_positive orders MatchingEngine.empty empty_positive
  exact ⟨e, evs, hrun, hev h⟩

/-- C10 witness: the sequence sell 10 at 100, buy 4 at 105. -/
theorem C10_no_zero_quantity_events_witness :
    (∀ o ∈ ordersScenarioTwo, 0 < o.quantity) ∧
    ∃ e evs, MatchingEngine.empty.addAll ordersScenarioTwo = Except.ok (e, evs) ∧
      ∀ ev ∈ evs, 0 < ev.quantity :=
  ⟨by decide, C10_no_zero_quantity_events ordersScenarioTwo (by decide)⟩

/-- C11 (non-crossing order rests whole). For every book state and every
incoming order with quantity greater than zero such that no order stored in
the opposing queue crosses its price (in particular when that queue is empty),
`add` returns, writes no event, leaves the opposing queue as it was and
appends exactly the incoming order to its own side queue. -/
theorem C11_non_crossing_order_rests (e : MatchingEngine) (order : Order)
    (hq : 0 < order.quantity)
    (hno : ∀ r ∈ (opposing e order).m_data, crosses order r = false) :
    ∃ e1, e.add order = Except.ok (e1, []) ∧
      opposing e1 order = opposing e order ∧
      (ownSide e1 order).m_data = (ownSide e order).m_data ++ [order] := by
  cases hty : order.type with
  | Buy =>
    simp only [opposing, crosses, hty] at hno
    have hloop := buyLoop_no_cross order e.m_sell_orders.size e.m_sell_orders order.quantity
      (fun r hr => by simpa using hno r (Heap.peek_mem hr))
    refine ⟨_, add_buy_eq e order hty _ _ _ hloop, ?_, ?_⟩
    · simp only [opposing, hty]
    · simp only [ownSide, hty, if_pos hq, unfilled_order]
      rw [← hty]
  | Sell =>
    simp only [opposing, crosses, hty] at hno
    have hloop := sellLoop_no_cross order e.m_buy_orders.size e.m_buy_orders order.quantity
      (fun r hr => by simpa using hno r (Heap.peek_mem hr))
    refine ⟨_, add_sell_eq e order hty _ _ _ hloop, ?_, ?_⟩
    · simp only [opposing, hty]
    · simp only [ownSide, hty, if_pos hq, unfilled_order]
      rw [← hty]

/-- C11 witness: scenario 1 (a sell of 10 at 100 into the empty book) and
scenario 3 (a buy of 5 at 99 against a stored sell at 100). -/
theorem C11_non_crossing_order_rests_witness :
    (∃ e1, MatchingEngine.empty.add (Order.mk 1 100 10 OrderType.Sell 1)
        = Except.ok (e1, []) ∧
      opposing e1 (Order.mk 1 100 10 OrderType.Sell 1)
        = opposing MatchingEngine.empty (Order.mk 1 100 10 OrderType.Sell 1) ∧
      (ownSide e1 (Order.mk 1 100 10 OrderType.Sell 1)).m_data
        = (ownSide MatchingEngine.empty (Order.mk 1 100 10 OrderType.Sell 1)).m_data
          ++ [Order.mk 1 100 10 OrderType.Sell 1]) ∧
    (∃ e1, bookOneSell.add (Order.mk 3 99 5 OrderType.Buy 3) = Except.ok (e1, []) ∧
      opposing e1 (Order.mk 3 99 5 OrderType.Buy 3)
        = opposing bookOneSell (Order.mk 3 99 5 OrderType.Buy 3) ∧
      (ownSide e1 (Order.mk 3 99 5 OrderType.Buy 3)).m_data
        = (ownSide bookOneSell (Order.mk 3 99 5 OrderType.Buy 3)).m_data
          ++ [Order.mk 3 99 5 OrderType.Buy 3]) :=
  ⟨C11_non_crossing_order_rests MatchingEngine.empty (Order.mk 1 100 10 OrderType.Sell 1)
      (by decide) (by decide),
    C11_non_crossing_order_rests bookOneSell (Order.mk 3 99 5 OrderType.Buy 3)
      (by decide) (by decide)⟩

/-- C13 (pop on a valid heap). For every non-empty heap whose array satisfies
the heap invariant under a strict weak ordering, `pop` returns an element such
that no element stored before the call is strictly better than it, and the
array left after `pop` is a permutation of the other elements that again
satisfies the heap invariant. -/
theorem C13_pop_valid_heap {T : Type} (m_compare : T → T → Bool)
    (hswo : StrictWeakOrder m_compare) (h : Heap T) (hne : h.size ≠ 0)
    (hheap : IsHeap m_compare h.m_data) :
    ∃ x h1, h.pop m_compare = Except.ok (x, h1) ∧
      (∀ y ∈ h.m_data, m_compare y x = false) ∧
      (x :: h1.m_data).Perm h.m_data ∧ IsHeap m_compare h1.m_data := by
  obtain ⟨d⟩ := h
  cases d with
  | nil => simp [Heap.size] at hne
  | cons a rest =>
    obtain ⟨d1, hd1, hp, hh⟩ := Heap.pop_heap hswo a rest hheap
    exact ⟨a, Heap.mk d1, hd1,
      IsHeap.root_extreme_mem hswo hheap a (by simp), hp.cons a, hh⟩

/-- C13 witness: `pop` on the min-heap of three sell orders at prices 90, 100
and 95. -/
theorem C13_pop_valid_heap_witness :
    StrictWeakOrder OrderLessComparator ∧ heapThreeSells.size ≠ 0 ∧
    IsHeap OrderLessComparator heapThreeSells.m_data ∧
    ∃ x h1, heapThreeSells.pop OrderLessComparator = Except.ok (x, h1) ∧
      (∀ y ∈ heapThreeSells.m_data, OrderLessComparator y x = false) ∧
      (x :: h1.m_data).Perm heapThreeSells.m_data ∧
      IsHeap OrderLessComparator h1.m_data :=
  ⟨OrderLessComparator_swo, by decide, heapThreeSells_isHeap,
    C13_pop_valid_heap OrderLessComparator OrderLessComparator_swo heapThreeSells
      (by decide) heapThreeSells_isHeap⟩

/-- C14 (bulk load establishes the heap). For every input vector and every
strict weak ordering, `from(data)` returns; the stored array is a permutation
of `data` that satisfies the heap invariant, and when `data` is not empty
`peek` returns an element of `data` such that no element of `data` is strictly
better than it. -/
theorem C14_from_establishes_heap {T : Type} (m_compare : T → T → Bool)
    (hswo : StrictWeakOrder m_compare) (h0 : Heap T) (data : List T) :
    ∃ h, Heap.«from» m_compare h0 data = Except.ok h ∧
      h.m_data.Perm data ∧ IsHeap m_compare h.m_data ∧
      (data ≠ [] → ∃ x, h.peek = some x ∧ x ∈ data ∧
        ∀ y ∈ data, m_compare y x = false) := by
  obtain ⟨d, hd, hp, hh⟩ := fromLoop_heap hswo (data.length / 2) data
    (fun i x y hi1 hi2 hi3 _ _ => by omega)
  refine ⟨Heap.mk d, ?_, hp, hh, ?_⟩
  · simp only [Heap.«from», hd]
  · intro hne
    cases d with
    | nil => exact absurd (List.Perm.nil_eq hp).symm hne
    | cons a rest =>
      refine ⟨a, Heap.peek_cons a rest, hp.subset (List.mem_cons_self _ _), ?_⟩
      intro y hy
      exact IsHeap.root_extreme_mem hswo hh a (by simp) y (hp.symm.subset hy)

/-- C14 witness: `from` on four sell orders at prices 100, 95, 90 and 85. -/
theorem C14_from_establishes_heap_witness :
    StrictWeakOrder OrderLessComparator ∧
    ∃ h, Heap.«from» OrderLessComparator Heap.empty dataFourSells = Except.ok h ∧
      h.m_data.Perm dataFourSells ∧ IsHeap OrderLessComparator h.m_data ∧
      (dataFourSells ≠ [] → ∃ x, h.peek = some x ∧ x ∈ dataFourSells ∧
        ∀ y ∈ dataFourSells, OrderLessComparator y x = false) :=
  ⟨OrderLessComparator_swo,
    C14_from_establishes_heap OrderLessComparator OrderLessComparator_swo Heap.empty
      dataFourSells⟩

/-- C15 (peek is a pure query). For every heap state, `peek` (a `const` method,
a function of the heap that returns no new heap) returns the empty optional
exactly when `size()` is 0; on an empty heap it returns it without a fault, and
otherwise it returns the element at position 0 of the array. -/
theorem C15_peek_pure_query {T : Type} (h : Heap T) :
    (h.peek = none ↔ h.size = 0) ∧
    (h.size = 0 → h.peek = none) ∧
    (h.size ≠ 0 → ∃ x, h.m_data[0]? = some x ∧ h.peek = some x) := by
  obtain ⟨d⟩ := h
  cases d with
  | nil => simp [Heap.peek, Heap.size]
  | cons a rest => simp [Heap.peek, Heap.size]

/-- C16 (no heap underflow inside the engine). `pop` has the fault
`EmptyQueueAccess` exactly on an empty queue, and for every book state and
every incoming order `add` returns a result: no call of `pop` made by `add` is
made on an empty queue. -/
theorem C16_no_empty_pop_in_add :
    (∀ (m_compare : Order → Order → Bool) (h : Heap Order),
      h.pop m_compare = Except.error Fault.EmptyQueueAccess ↔ h.size = 0) ∧
    (∀ (e : MatchingEngine) (order : Order),
      (∃ res, e.add order = Except.ok res) ∧
      e.add order ≠ Except.error Fault.EmptyQueueAccess) := by
  constructor
  · intro m_compare h
    obtain ⟨d⟩ := h
    cases d with
    | nil => simp [Heap.pop_nil, Heap.size]
    | cons a rest =>
      obtain ⟨d1, hd1, -⟩ := Heap.pop_cons m_compare a rest
      simp [hd1, Heap.size]
  · intro e order
    obtain ⟨res, hres⟩ := add_total e order
    exact ⟨⟨res, hres⟩, by rw [hres]; exact fun h => by cases h⟩

/-- C17 (add terminates). For every book state and every incoming order, of any
price and any quantity, `add` returns a result with the fuel it is given; a
matching loop started with fuel at least the size of the opposing queue
returns, writes at most one event more than the number of orders it removes
(every iteration but the last removes one) and never enlarges the queue; and
`heapify` at an index `index >= 1` returns whenever the fuel covers
`size - index`, leaving the size unchanged. -/
theorem C17_add_terminates :
    (∀ (e : MatchingEngine) (order : Order), ∃ res, e.add order = Except.ok res) ∧
    (∀ (order : Order) (fuel : Nat) (sells : Heap Order) (q : Nat), sells.size ≤ fuel →
      ∃ res, buyLoop order fuel sells q = Except.ok res ∧
        res.2.2.length + res.1.size ≤ sells.size + 1 ∧ res.1.size ≤ sells.size) ∧
    (∀ (order : Order) (fuel : Nat) (buys : Heap Order) (q : Nat), buys.size ≤ fuel →
      ∃ res, sellLoop order fuel buys q = Except.ok res ∧
        res.2.2.length + res.1.size ≤ buys.size + 1 ∧ res.1.size ≤ buys.size) ∧
    (∀ (m_compare : Order → Order → Bool) (fuel : Nat) (m_data : List Order) (index : Nat),
      1 ≤ index → m_data.length ≤ index + fuel →
      ∃ d, heapifyLoop m_compare fuel m_data index = Except.ok d ∧
        d.length = m_data.length) := by
  refine ⟨add_total, buyLoop_steps, sellLoop_steps, ?_⟩
  intro m_compare fuel m_data index h1 h2
  obtain ⟨d, hd, hp⟩ := heapifyLoop_ok m_compare fuel m_data index h1 h2
  exact ⟨d, hd, hp.length_eq⟩

/-- C18 (the order comparators are strict weak orderings encoding price then
time). `OrderGreaterComparator(a, b)` holds exactly when `a.price > b.price`, or
the prices are equal and `a.time_unix_nano < b.time_unix_nano`;
`OrderLessComparator(a, b)` holds exactly when `a.price < b.price`, or the prices
are equal and `a.time_unix_nano < b.time_unix_nano`; each relation is
irreflexive, asymmetric, transitive and has a transitive incomparability. -/
theorem C18_comparators_strict_weak :
    (∀ a b : Order, OrderGreaterComparator a b = true ↔
      a.price > b.price ∨ (a.price = b.price ∧ a.time_unix_nano < b.time_unix_nano)) ∧
    (∀ a b : Order, OrderLessComparator a b = true ↔
      a.price < b.price ∨ (a.price = b.price ∧ a.time_unix_nano < b.time_unix_nano)) ∧
    StrictWeakOrder OrderGreaterComparator ∧ StrictWeakOrder OrderLessComparator :=
  ⟨OrderGreaterComparator_iff, OrderLessComparator_iff, OrderGreaterComparator_swo,
    OrderLessComparator_swo⟩

/-- C19 (heap operations neither lose nor invent elements). For any comparator,
every array returned by `heapify` is a permutation of the array it was given,
and `heapify` returns at every index `index >= 1` (the indices it is called
with; index 0 reads outside the array); `push(x)` returns an array that is a permutation of the old one with `x` added
and a size larger by one; `pop` on a non-empty heap returns an element and an
array that together are a permutation of the old array, with a size smaller by
one. -/
theorem C19_heap_operations_permute {T : Type} (m_compare : T → T → Bool) :
    (∀ (m_data : List T) (index : Nat) (d : List T),
      heapify m_compare m_data index = Except.ok d → d.Perm m_data) ∧
    (∀ (m_data : List T) (index : Nat), 1 ≤ index →
      ∃ d, heapify m_compare m_data index = Except.ok d) ∧
    (∀ (h : Heap T) (x : T), ∃ h1, h.push m_compare x = Except.ok h1 ∧
      h1.m_data.Perm (x :: h.m_data) ∧ h1.size = h.size + 1) ∧
    (∀ (h : Heap T), h.size ≠ 0 → ∃ x h1, h.pop m_compare = Except.ok (x, h1) ∧
      (x :: h1.m_data).Perm h.m_data ∧ h1.size + 1 = h.size) := by
  refine ⟨heapify_perm_of_ok m_compare, ?_, ?_, ?_⟩
  · intro m_data index h1
    obtain ⟨d, hd, -⟩ := heapify_ok m_compare m_data index h1
    exact ⟨d, hd⟩
  · intro h x
    refine ⟨_, Heap.push_eq m_compare h x, ?_, ?_⟩
    · exact List.perm_append_singleton x h.m_data
    · simp [Heap.size]
  · intro h hne
    obtain ⟨d⟩ := h
    cases d with
    | nil => simp [Heap.size] at hne
    | cons a rest =>
      obtain ⟨d1, hd1, hp⟩ := Heap.pop_cons m_compare a rest
      refine ⟨a, Heap.mk d1, hd1, hp.cons a, ?_⟩
      simp [Heap.size, hp.length_eq]

/-- C20 (next greater price). For every list `prices`, `find_next_prices`
returns a list of the same length, and for every index `i` of `prices` its
entry at `i` is the smallest index `j > i` with `prices[j] > prices[i]` when
there is such an index, and 0 otherwise. -/
theorem C20_find_next_prices (prices : List Int) :
    ∃ result, find_next_prices prices = Except.ok result ∧
      result.length = prices.length ∧
      ∀ i p, prices[i]? = some p →
        ∃ r, result[i]? = some r ∧ IsNextGreater prices i p r := by
  unfold find_next_prices
  refine forLoop_spec prices prices.length _ [] (le_refl _) (by simp) ?_ ?_
    List.Pairwise.nil (by simp) ?_
  · intro t ht
    simp [List.getElem?_replicate, ht]
  · intro t p ht hp
    have := (List.getElem?_eq_some.1 hp).1
    omega
  · intro j q hj hq
    have := (List.getElem?_eq_some.1 hq).1
    omega

end Kstream
